import Mathlib

/-!
# Deferred send queue of `pkg/pillar/zedcloud/deferred.go`

A shallow embedding of the deferred-queue controller: the item store
(`SetDeferred`, `RemoveDeferred`), the merge reconciler (`mergeQueuesNoLock`),
the dispatch round (`handleDeferred`) and the timer regime switches
(`startTimer`, `stopTimer`, `KickTimer`).

Modelling conventions:
* a slice of item pointers is a `List deferredItem`; every pointer in the
  store comes from a fresh `&item` in `SetDeferred`, so distinct positions
  hold distinct objects and `item.buf = nil` at one position is an update of
  that list position;
* `*bytes.Buffer` is `Option (List Nat)`: `none` is the nil pointer, `some b`
  a buffer whose unread bytes are `b` (so `Len()` is `b.length`);
* `interface{}` item types are opaque tags, here natural numbers;
* the transmission primitive `SendOnAllIntf` and the completion callback are
  collaborators: the first is a parameter of the round, the calls made to
  both are recorded in the round state.
-/

set_option autoImplicit false

namespace Zedcloud

/-! ## Data model -/

/-- Modelled from the spec: `types.SenderStatus` is declared in package `types`,
which is not among the sources. The spec names the values none/no-problem,
failed and debug-informational, plus others the engine only tests for being
"not none". -/
inductive SenderStatus where
  | SenderStatusNone
  | SenderStatusFailed
  | SenderStatusDebug
  | other (code : Nat)
  deriving DecidableEq, Repr

open SenderStatus

/-- Modelled from the spec: the result of `SendOnAllIntf` (`SendRetval`, declared
in another file of the package): status, optional HTTP response (its
`StatusCode`), diagnostic traces (a possibly nil slice). -/
structure SendRetval where
  Status : SenderStatus
  HTTPResp : Option Int
  TracedReqs : Option (List Nat)
  deriving DecidableEq, Repr

/-- The struct `deferredItem`. -/
structure deferredItem where
  itemType : Nat
  key : String
  buf : Option (List Nat)
  size : Int
  url : String
  bailOnHTTPErr : Bool
  withNetTracing : Bool
  ignoreErr : Bool
  deriving DecidableEq, Repr

/-- `time.Duration` values are nanosecond counts. -/
def Minute : Nat := 60 * 1000000000

/-- `time.Hour`. -/
def Hour : Nat := 60 * Minute

/-- `const longTime1 = time.Hour * 24`. -/
def longTime1 : Nat := Hour * 24

/-- `const longTime2 = time.Hour * 48`. -/
def longTime2 : Nat := Hour * 48

/-- Modelled from the spec: the configuration of a `flextimer` ticker (package
`flextimer` is not among the sources): a range ticker between two durations,
or an exponential ticker with bounds and a random factor, the latter kept in
tenths (`0.3` is `3`). -/
inductive TickerConfig where
  | rangeTicker (minTime maxTime : Nat)
  | expTicker (minTime maxTime : Nat) (randomFactorTenths : Nat)
  deriving DecidableEq, Repr

/-- Modelled from the spec: a `flextimer.FlexTickerHandle`: the configuration in
force and the number of `TickNow` requests made so far. -/
structure FlexTickerHandle where
  config : TickerConfig
  ticksNow : Nat
  deriving DecidableEq, Repr

/-- `type TypePriorityCheckFunction func(itemType interface{}) bool`. -/
abbrev TypePriorityCheckFunction := Nat → Bool

/-- The struct `DeferredContext`. The mutex is not data; `sentHandler` records
whether the handler pointer is non-nil (its invocations are recorded in the
round state); `zedcloudCtx` is only used for logging and as an argument of the
transmission primitive. -/
structure DeferredContext where
  deferredItems : List deferredItem
  Ticker : FlexTickerHandle
  priorityCheckFunctions : List TypePriorityCheckFunction
  sentHandler : Bool
  iteration : Int

/-- Go `int` arithmetic on a 64-bit platform: results wrap to the signed 64-bit range. -/
def wrapInt (x : Int) : Int := (x + 2 ^ 63) % 2 ^ 64 - 2 ^ 63

/-! ## Timer -/

/-- `startTimer`: `ctx.Ticker.UpdateExpTicker(min, max, 0.3)` with 1 and 15 minutes. -/
def startTimer (ctx : DeferredContext) : DeferredContext :=
  { ctx with Ticker := { ctx.Ticker with config := .expTicker (1 * Minute) (15 * Minute) 3 } }

/-- `stopTimer`: `ctx.Ticker.UpdateRangeTicker(longTime1, longTime2)`. -/
def stopTimer (ctx : DeferredContext) : DeferredContext :=
  { ctx with Ticker := { ctx.Ticker with config := .rangeTicker longTime1 longTime2 } }

/-- `KickTimer`: `ctx.Ticker.TickNow()`. -/
def KickTimer (ctx : DeferredContext) : DeferredContext :=
  { ctx with Ticker := { ctx.Ticker with ticksNow := ctx.Ticker.ticksNow + 1 } }

/-- `CreateDeferredCtx`: the accept-all predicate is appended to the caller's
priority functions, the ticker starts as a range ticker, the store is empty
and the iteration counter is zero. -/
def CreateDeferredCtx (sentHandler : Bool)
    (priorityCheckFunctions : List TypePriorityCheckFunction) : DeferredContext :=
  { deferredItems := []
    Ticker := { config := .rangeTicker longTime1 longTime2, ticksNow := 0 }
    priorityCheckFunctions := priorityCheckFunctions ++ [fun _ => true]
    sentHandler := sentHandler
    iteration := 0 }

/-! ## Item store -/

/-- The search loop of `SetDeferred`: the index of the first item with the key,
if there is one (`found`, `ind`). -/
def findKey (key : String) : List deferredItem → Option Nat
  | [] => none
  | itemList :: rest =>
    if itemList.key = key then some 0
    else match findKey key rest with
      | some ind => some (ind + 1)
      | none => none

/-- `SetDeferred`. -/
def SetDeferred (ctx : DeferredContext) (key : String) (buf : Option (List Nat))
    (size : Int) (url : String) (bailOnHTTPErr withNetTracing ignoreErr : Bool)
    (itemType : Nat) : DeferredContext :=
  let ctx1 := if ctx.deferredItems.length = 0 then startTimer ctx else ctx
  let item : deferredItem :=
    { key := key, itemType := itemType, buf := buf, size := size, url := url,
      bailOnHTTPErr := bailOnHTTPErr, withNetTracing := withNetTracing,
      ignoreErr := ignoreErr }
  let ctx2 :=
    match findKey key ctx1.deferredItems with
    | some ind => { ctx1 with deferredItems := ctx1.deferredItems.set ind item }
    | none => { ctx1 with deferredItems := ctx1.deferredItems ++ [item] }
  KickTimer ctx2

/-- The loop of `RemoveDeferred`: the first item with the key is cut out of the
slice (`append(s[:ind], s[ind+1:]...)`) and the loop stops. -/
def removeKey (key : String) : List deferredItem → List deferredItem
  | [] => []
  | itemList :: rest =>
    if itemList.key = key then rest else itemList :: removeKey key rest

/-- `RemoveDeferred`. -/
def RemoveDeferred (ctx : DeferredContext) (key : String) : DeferredContext :=
  let ctx1 := { ctx with deferredItems := removeKey key ctx.deferredItems }
  if ctx1.deferredItems.length = 0 then stopTimer ctx1 else ctx1

/-! ## Merge reconciler -/

/-- The inner loop of `mergeQueuesNoLock` for one not-sent item: scan the store
for the first item with the same key; when found it replaces the not-sent
entry and is cut out of the store. Returns the entry and the store. -/
def mergeScan (oldItem : deferredItem) : List deferredItem → deferredItem × List deferredItem
  | [] => (oldItem, [])
  | newItem :: rest =>
    if oldItem.key = newItem.key then (newItem, rest)
    else ((mergeScan oldItem rest).1, newItem :: (mergeScan oldItem rest).2)

/-- The outer loop of `mergeQueuesNoLock` over the not-sent requests. Returns the
updated not-sent slice and the remaining store. -/
def mergeLoop : List deferredItem → List deferredItem → List deferredItem × List deferredItem
  | [], store => ([], store)
  | oldItem :: rest, store =>
    ((mergeScan oldItem store).1 :: (mergeLoop rest (mergeScan oldItem store).2).1,
      (mergeLoop rest (mergeScan oldItem store).2).2)

/-- `mergeQueuesNoLock`. -/
def mergeQueuesNoLock (ctx : DeferredContext) (notSentReqs : List deferredItem) :
    DeferredContext :=
  if ctx.deferredItems.length > 0 then
    { ctx with deferredItems :=
        (mergeLoop notSentReqs ctx.deferredItems).1 ++ (mergeLoop notSentReqs ctx.deferredItems).2 }
  else
    { ctx with deferredItems := notSentReqs ++ ctx.deferredItems }

/-! ## Dispatch round -/

/-- The arguments `SendOnAllIntf` receives from `handleDeferred` (the two
contexts apart). The buffer passed is non-nil; its bytes are `buf`. -/
structure SendArgs where
  url : String
  size : Int
  buf : List Nat
  iteration : Int
  bailOnHTTPErr : Bool
  withNetTracing : Bool
  deriving DecidableEq, Repr

/-- The transmission primitive, a collaborator: any function from the arguments
to the returned value and whether the returned error is non-nil. -/
abbrev Sender := SendArgs → SendRetval × Bool

/-- One call of `SendOnAllIntf` as made by the round: the item passed (as it was
at the call), the iteration counter passed, and what the call returned. -/
structure SendCall where
  item : deferredItem
  iteration : Int
  rv : SendRetval
  err : Bool
  deriving DecidableEq, Repr

/-- One invocation of the completion callback `sentHandler`. -/
structure SentEvent where
  itemType : Nat
  data : Option (List Nat)
  result : SenderStatus
  traces : Option (List Nat)
  deriving DecidableEq, Repr

/-- The variables the loops of `handleDeferred` update: the locals `exit` and
`sent`, the field `ctx.iteration`, and the calls made so far to the
transmission primitive and to the completion callback. -/
structure RoundState where
  exit : Bool
  sent : Nat
  iteration : Int
  calls : List SendCall
  handled : List SentEvent
  deriving DecidableEq, Repr

/-- The test `item.bailOnHTTPErr && rv.HTTPResp != nil && rv.HTTPResp.StatusCode >= 400
&& rv.HTTPResp.StatusCode < 600`. -/
def bailsOut (item : deferredItem) (rv : SendRetval) : Bool :=
  item.bailOnHTTPErr &&
    (match rv.HTTPResp with
     | none => false
     | some code => decide (code ≥ 400) && decide (code < 600))

/-- The value of `exit` after the outcome of a send has been classified. -/
def exitAfter (item : deferredItem) (rv : SendRetval) (err : Bool) (exit : Bool) : Bool :=
  if bailsOut item rv then exit
  else if err then !item.ignoreErr
  else if rv.Status ≠ SenderStatusNone then !item.ignoreErr
  else exit

/-- The value of `rv.Status` after the outcome of a send has been classified: an
error with `SenderStatusNone` is turned into `SenderStatusFailed`. -/
def statusAfter (item : deferredItem) (rv : SendRetval) (err : Bool) : SenderStatus :=
  if bailsOut item rv then rv.Status
  else if err then (if rv.Status = SenderStatusNone then SenderStatusFailed else rv.Status)
  else rv.Status

/-- The body of the inner loop from the call of `SendOnAllIntf` to `ctx.iteration++`,
for an item whose buffer `b` is non-nil and non-empty. -/
def trySend (hasHandler : Bool) (send : Sender) (item : deferredItem) (b : List Nat)
    (st : RoundState) : RoundState :=
  let r := send { url := item.url, size := item.size, buf := b, iteration := st.iteration,
                  bailOnHTTPErr := item.bailOnHTTPErr, withNetTracing := item.withNetTracing }
  { exit := exitAfter item r.1 r.2 st.exit
    sent := st.sent
    iteration := wrapInt (st.iteration + 1)
    calls := st.calls ++ [{ item := item, iteration := st.iteration, rv := r.1, err := r.2 }]
    handled :=
      if hasHandler then
        st.handled ++ [{ itemType := item.itemType, data := item.buf,
                         result := statusAfter item r.1 r.2, traces := r.1.TracedReqs }]
      else st.handled }

/-- The inner loop `for _, item := range reqs` under one priority function `f`.
Returns the items (with `buf` set to nil where the loop did so) and the state. -/
def innerLoop (hasHandler : Bool) (send : Sender) (f : TypePriorityCheckFunction) :
    List deferredItem → RoundState → List deferredItem × RoundState
  | [], st => ([], st)
  | item :: rest, st =>
    if !f item.itemType then
      (item :: (innerLoop hasHandler send f rest st).1, (innerLoop hasHandler send f rest st).2)
    else
      match item.buf with
      | none =>
        (item :: (innerLoop hasHandler send f rest st).1, (innerLoop hasHandler send f rest st).2)
      | some b =>
        if b.length = 0 then
          (item :: (innerLoop hasHandler send f rest st).1,
            (innerLoop hasHandler send f rest st).2)
        else
          if (trySend hasHandler send item b st).exit then
            (item :: rest, trySend hasHandler send item b st)
          else
            ({ item with buf := none } ::
                (innerLoop hasHandler send f rest
                  { trySend hasHandler send item b st with
                    sent := (trySend hasHandler send item b st).sent + 1 }).1,
              (innerLoop hasHandler send f rest
                  { trySend hasHandler send item b st with
                    sent := (trySend hasHandler send item b st).sent + 1 }).2)

/-- The outer loop `for _, f := range ctx.priorityCheckFunctions`. -/
def priorityLoop (hasHandler : Bool) (send : Sender) :
    List TypePriorityCheckFunction → List deferredItem → RoundState →
      List deferredItem × RoundState
  | [], reqs, st => (reqs, st)
  | f :: fs, reqs, st =>
    if (innerLoop hasHandler send f reqs st).2.exit then innerLoop hasHandler send f reqs st
    else priorityLoop hasHandler send fs (innerLoop hasHandler send f reqs st).1
      (innerLoop hasHandler send f reqs st).2

/-- The state in which `handleDeferred` enters its loops. -/
def roundStart (ctx : DeferredContext) : RoundState :=
  { exit := false, sent := 0, iteration := ctx.iteration, calls := [], handled := [] }

/-- The computation of `notSentReqs` from the batch as the loops left it. -/
def notSentOf (sent : Nat) (reqs : List deferredItem) : List deferredItem :=
  if sent = 0 then reqs else reqs.filter (fun el => el.buf.isSome)

/-- The callbacks made for the rest of the queue: one per not-sent item, with
`SenderStatusDebug` and nil traces, when the handler is set. -/
def debugEvents (hasHandler : Bool) (notSentReqs : List deferredItem) : List SentEvent :=
  if notSentReqs.length > 0 then
    if hasHandler then
      notSentReqs.map (fun item =>
        { itemType := item.itemType, data := item.buf, result := SenderStatusDebug,
          traces := none })
    else []
  else []

/-- What a round of `handleDeferred` that found a non-empty batch computes
between the two critical sections. -/
structure Round where
  reqs : List deferredItem
  notSentReqs : List deferredItem
  exit : Bool
  sent : Nat
  iteration : Int
  calls : List SendCall
  handled : List SentEvent

/-- The part of `handleDeferred` that runs without the lock, on the batch `reqs`. -/
def sendRound (ctx : DeferredContext) (send : Sender) (reqs : List deferredItem) : Round :=
  let r := priorityLoop ctx.sentHandler send ctx.priorityCheckFunctions reqs (roundStart ctx)
  let notSentReqs := notSentOf r.2.sent r.1
  { reqs := r.1
    notSentReqs := notSentReqs
    exit := r.2.exit
    sent := r.2.sent
    iteration := r.2.iteration
    calls := r.2.calls
    handled := r.2.handled ++ debugEvents ctx.sentHandler notSentReqs }

/-- The first critical section of `handleDeferred`: take the whole store. -/
def takeAll (ctx : DeferredContext) : List deferredItem × DeferredContext :=
  (ctx.deferredItems, { ctx with deferredItems := [] })

/-- The second critical section of `handleDeferred`: merge the not-sent requests
into the store and stop the timer when the store is empty. -/
def mergeBack (ctx : DeferredContext) (notSentReqs : List deferredItem) : DeferredContext :=
  if (mergeQueuesNoLock ctx notSentReqs).deferredItems.length = 0 then
    stopTimer (mergeQueuesNoLock ctx notSentReqs)
  else mergeQueuesNoLock ctx notSentReqs

/-- What a call of `handleDeferred` returns and does. -/
structure Handled where
  allSent : Bool
  ctx : DeferredContext
  calls : List SendCall
  handled : List SentEvent

/-- The end of `handleDeferred` for the non-empty batch `reqs`, run on the context
as it is when the lock is taken again. -/
def finishRound (ctx : DeferredContext) (send : Sender) (reqs : List deferredItem) : Handled :=
  let r := sendRound ctx send reqs
  { allSent := decide (r.notSentReqs.length = 0)
    ctx := mergeBack { ctx with iteration := r.iteration } r.notSentReqs
    calls := r.calls
    handled := r.handled }

/-- `handleDeferred`, with no producer running during the round. -/
def handleDeferred (ctx : DeferredContext) (send : Sender) : Handled :=
  if (takeAll ctx).1.length = 0 then
    { allSent := true, ctx := (takeAll ctx).2, calls := [], handled := [] }
  else finishRound (takeAll ctx).2 send (takeAll ctx).1

/-! ## Producers running during a round -/

/-- The state of the controller as the producers and the processing task see it:
the context, and the batch of the round in progress, if any. -/
structure System where
  ctx : DeferredContext
  inflight : Option (List deferredItem)

/-- The atomic steps: the two producer calls, and the two critical sections of
`handleDeferred`, the second with the outcomes of the sends of that round. -/
inductive Op where
  | setDeferred (key : String) (buf : Option (List Nat)) (size : Int) (url : String)
      (bailOnHTTPErr withNetTracing ignoreErr : Bool) (itemType : Nat)
  | removeDeferred (key : String)
  | takeAll
  | mergeBack (send : Sender)

/-- One atomic step. The processing task is the only caller of `handleDeferred`,
so a round starts only when none is in progress; a round on an empty batch
returns at once. -/
def step (s : System) : Op → System
  | .setDeferred key buf size url bail tracing ign ty =>
    { s with ctx := SetDeferred s.ctx key buf size url bail tracing ign ty }
  | .removeDeferred key => { s with ctx := RemoveDeferred s.ctx key }
  | .takeAll =>
    match s.inflight with
    | some _ => s
    | none =>
      if (takeAll s.ctx).1.length = 0 then { s with ctx := (takeAll s.ctx).2 }
      else { ctx := (takeAll s.ctx).2, inflight := some (takeAll s.ctx).1 }
  | .mergeBack send =>
    match s.inflight with
    | none => s
    | some reqs => { ctx := (finishRound s.ctx send reqs).ctx, inflight := none }

/-- A sequence of atomic steps. -/
def run (s : System) : List Op → System
  | [] => s
  | op :: ops => run (step s op) ops

/-- The controller right after `CreateDeferredCtx`. -/
def initSystem (sentHandler : Bool) (priorityCheckFunctions : List TypePriorityCheckFunction) :
    System :=
  { ctx := CreateDeferredCtx sentHandler priorityCheckFunctions, inflight := none }

/-- Whether a step is a producer call. -/
def Op.isProducer : Op → Bool
  | .setDeferred .. => true
  | .removeDeferred _ => true
  | _ => false

/-- The key a producer call is about. -/
def Op.key? : Op → Option String
  | .setDeferred key .. => some key
  | .removeDeferred key => some key
  | _ => none

/-! ## Derived notions used in the statements -/

/-- The keys of a list of items, in order. -/
def keysOf (l : List deferredItem) : List String := l.map (fun it => it.key)

/-- Whether the round would offer the item to the transmission primitive: the
buffer is non-nil and not of length zero. -/
def hasPayload (item : deferredItem) : Bool :=
  match item.buf with
  | none => false
  | some b => b.length ≠ 0

/-- The item after `item.buf = nil`. -/
def clearBuf (item : deferredItem) : deferredItem := { item with buf := none }

/-- The call of `SendOnAllIntf` the round makes for an item with a buffer when the
iteration counter is `iteration`. -/
def callOf (send : Sender) (item : deferredItem) (iteration : Int) : SendCall :=
  { item := item
    iteration := iteration
    rv := (send { url := item.url, size := item.size, buf := item.buf.getD [],
                  iteration := iteration, bailOnHTTPErr := item.bailOnHTTPErr,
                  withNetTracing := item.withNetTracing }).1
    err := (send { url := item.url, size := item.size, buf := item.buf.getD [],
                   iteration := iteration, bailOnHTTPErr := item.bailOnHTTPErr,
                   withNetTracing := item.withNetTracing }).2 }

/-- Whether the outcome of a call sets `exit`, which stops the round. -/
def SendCall.halts (c : SendCall) : Bool := exitAfter c.item c.rv c.err false

/-- The invocation of the completion callback that follows a call. -/
def SendCall.event (c : SendCall) : SentEvent :=
  { itemType := c.item.itemType, data := c.item.buf,
    result := statusAfter c.item c.rv c.err, traces := c.rv.TracedReqs }

/-- The invocation of the completion callback for an item left in the queue. -/
def debugEvent (item : deferredItem) : SentEvent :=
  { itemType := item.itemType, data := item.buf, result := SenderStatusDebug, traces := none }

/-- `ctx.iteration++`. -/
def nextIteration (i : Int) : Int := wrapInt (i + 1)

/-- Whether the inner loop under `f` offers the item to the transmission primitive. -/
def eligible (f : TypePriorityCheckFunction) (item : deferredItem) : Bool :=
  f item.itemType && hasPayload item

/-- Reference for the sends of a round: the items of `l` are sent one after the
other, each with the next iteration value, up to and including the first
call whose outcome stops the round. -/
def seqCalls (send : Sender) : List deferredItem → Int → List SendCall
  | [], _ => []
  | item :: rest, i =>
    if (callOf send item i).halts then [callOf send item i]
    else callOf send item i :: seqCalls send rest (nextIteration i)

/-- Reference for the effect of a sequence of calls on the variables of the round. -/
def applyCalls (hasHandler : Bool) (st : RoundState) (cs : List SendCall) : RoundState :=
  { exit := st.exit || cs.any SendCall.halts
    sent := st.sent + (cs.filter (fun c => !c.halts)).length
    iteration := nextIteration^[cs.length] st.iteration
    calls := st.calls ++ cs
    handled := if hasHandler then st.handled ++ cs.map SendCall.event else st.handled }

/-- The items whose call did not stop the round: their buffer is set to nil. -/
def doneOf (cs : List SendCall) : List deferredItem :=
  (cs.filter (fun c => !c.halts)).map (fun c => c.item)

/-- The batch entry for `item` once the items of `done` have been dealt with. -/
def markDone (done : List deferredItem) (item : deferredItem) : deferredItem :=
  if item ∈ done then clearBuf item else item

/-- Reference for the order of the sends, following the loops: under each
priority function in turn, the items with payload it accepts, in store order;
the later functions see the items it did not accept. -/
def priorityOrder : List TypePriorityCheckFunction → List deferredItem → List deferredItem
  | [], _ => []
  | f :: fs, reqs =>
    reqs.filter (eligible f) ++ priorityOrder fs (reqs.filter (fun it => !f it.itemType))

/-- The index of the first priority function accepting an item type (the number
of functions when none does). -/
def firstAccepting : List TypePriorityCheckFunction → Nat → Nat
  | [], _ => 0
  | f :: fs, ty => if f ty then 0 else firstAccepting fs ty + 1

/-- The items with payload, stably ordered by the index of the first priority
function accepting their type: for each index in turn, the items of that
index in store order. -/
def byFirstAccepting (fs : List TypePriorityCheckFunction) (reqs : List deferredItem) :
    List deferredItem :=
  (List.range fs.length).flatMap
    (fun k => reqs.filter (fun it => hasPayload it && decide (firstAccepting fs it.itemType = k)))

/-! ## Operations executed one after another -/

/-- The operations of a run without concurrency: the two producer calls and
complete rounds of `handleDeferred`, each with the outcomes of its sends. -/
inductive SeqOp where
  | setDeferred (key : String) (buf : Option (List Nat)) (size : Int) (url : String)
      (bailOnHTTPErr withNetTracing ignoreErr : Bool) (itemType : Nat)
  | removeDeferred (key : String)
  | handleDeferred (send : Sender)

/-- One operation on the context. -/
def seqStep (ctx : DeferredContext) : SeqOp → DeferredContext
  | .setDeferred key buf size url bail tracing ign ty =>
    SetDeferred ctx key buf size url bail tracing ign ty
  | .removeDeferred key => RemoveDeferred ctx key
  | .handleDeferred send => (handleDeferred ctx send).ctx

/-- A sequence of operations, one after another. -/
def seqRun (ctx : DeferredContext) : List SeqOp → DeferredContext
  | [] => ctx
  | op :: ops => seqRun (seqStep ctx op) ops

/-! ## Reference for the merge -/

/-- The item of the store with the key of `oldItem`, if there is one, else `oldItem`. -/
def supersededBy (store : List deferredItem) (oldItem : deferredItem) : deferredItem :=
  (store.find? (fun it => decide (it.key = oldItem.key))).getD oldItem

/-- Reference for the merge, after the description of the reconciler: the not-sent
list with each entry whose key occurs in the store replaced, at its position,
by the store's item of that key, followed by the items of the store whose key
does not occur in the not-sent list, in their order. -/
def mergeRef (notSentReqs store : List deferredItem) : List deferredItem :=
  notSentReqs.map (supersededBy store) ++
    store.filter (fun it => decide (it.key ∉ keysOf notSentReqs))

/-! ## A sample context

The batch of the halt-ordering scenario: two items of a prioritised type and
one other item, under one priority function and the accept-all default. -/

/-- An item of type 1 under key `a1`. -/
def sampleA1 (bailOnHTTPErr ignoreErr : Bool) : deferredItem :=
  { itemType := 1, key := "a1", buf := some [1], size := 1, url := "u/a1",
    bailOnHTTPErr := bailOnHTTPErr, withNetTracing := false, ignoreErr := ignoreErr }

/-- An item of type 1 under key `a2`. -/
def sampleA2 : deferredItem :=
  { itemType := 1, key := "a2", buf := some [2], size := 1, url := "u/a2",
    bailOnHTTPErr := false, withNetTracing := false, ignoreErr := false }

/-- An item of type 2 under key `b1`. -/
def sampleB1 : deferredItem :=
  { itemType := 2, key := "b1", buf := some [3], size := 1, url := "u/b1",
    bailOnHTTPErr := false, withNetTracing := false, ignoreErr := false }

/-- An item of type 2 with a non-nil buffer of length zero. -/
def sampleEmpty : deferredItem :=
  { itemType := 2, key := "e", buf := some [], size := 0, url := "u/e",
    bailOnHTTPErr := false, withNetTracing := false, ignoreErr := false }

/-- A context whose store is `b1, a1, a2`, with type 1 prioritised. -/
def sampleCtx (bailOnHTTPErr ignoreErr : Bool) : DeferredContext :=
  { deferredItems := [sampleB1, sampleA1 bailOnHTTPErr ignoreErr, sampleA2]
    Ticker := { config := .expTicker (1 * Minute) (15 * Minute) 3, ticksNow := 3 }
    priorityCheckFunctions := [fun ty => ty == 1, fun _ => true]
    sentHandler := true
    iteration := 7 }

/-- A transmission that fails with an error for `u/a1` and succeeds otherwise. -/
def sampleSendErr : Sender := fun args =>
  if args.url = "u/a1" then
    ({ Status := SenderStatusNone, HTTPResp := none, TracedReqs := none }, true)
  else ({ Status := SenderStatusNone, HTTPResp := none, TracedReqs := none }, false)

/-- A transmission that gets HTTP 404 with an error for `u/a1` and succeeds otherwise. -/
def sampleSend404 : Sender := fun args =>
  if args.url = "u/a1" then
    ({ Status := .other 5, HTTPResp := some 404, TracedReqs := none }, true)
  else ({ Status := SenderStatusNone, HTTPResp := none, TracedReqs := none }, false)

/-- A transmission that always succeeds. -/
def sampleSendOk : Sender := fun _ =>
  ({ Status := SenderStatusNone, HTTPResp := none, TracedReqs := some [] }, false)

/-- A transmission that always fails with an error. -/
def sampleSendFail : Sender := fun _ =>
  ({ Status := SenderStatusNone, HTTPResp := none, TracedReqs := none }, true)

/-- A context holding `b1` whose iteration counter is the largest 64-bit `int`. -/
def sampleCtxMaxInt : DeferredContext :=
  { deferredItems := [sampleB1]
    Ticker := { config := .expTicker (1 * Minute) (15 * Minute) 3, ticksNow := 1 }
    priorityCheckFunctions := [fun _ => true]
    sentHandler := true
    iteration := 9223372036854775807 }

/-! ## Lemmas on the item store -/

theorem mem_keysOf {key : String} {l : List deferredItem} :
    key ∈ keysOf l ↔ ∃ it ∈ l, it.key = key := by
  simp [keysOf]

theorem findKey_eq_none {key : String} {l : List deferredItem} :
    findKey key l = none ↔ ∀ it ∈ l, it.key ≠ key := by
  induction l with
  | nil => simp [findKey]
  | cons a l ih =>
    by_cases h : a.key = key
    · simp [findKey, h]
    · cases hf : findKey key l with
      | none => simpa [findKey, h, hf] using ih.mp hf
      | some i =>
        have : ¬ ∀ it ∈ l, it.key ≠ key := fun hc => by
          rw [ih.mpr hc] at hf; cases hf
        simpa [findKey, h, hf] using this

theorem findKey_eq_some {key : String} {l : List deferredItem} {ind : Nat}
    (h : findKey key l = some ind) :
    (∃ it, l[ind]? = some it ∧ it.key = key) ∧
      ∀ j, j < ind → ∀ jt, l[j]? = some jt → jt.key ≠ key := by
  induction l generalizing ind with
  | nil => simp [findKey] at h
  | cons a l ih =>
    by_cases ha : a.key = key
    · simp [findKey, ha] at h
      subst h
      simp [ha]
    · cases hf : findKey key l with
      | none => simp [findKey, ha, hf] at h
      | some i =>
        simp [findKey, ha, hf] at h
        subst h
        obtain ⟨⟨it, hit, hk⟩, hlt⟩ := ih hf
        refine ⟨⟨it, by simpa using hit, hk⟩, ?_⟩
        intro j hj jt hjt
        cases j with
        | zero => simp at hjt; subst hjt; exact ha
        | succ j => exact hlt j (by omega) jt (by simpa using hjt)

/-- The first position holding the key is the one the search loop finds. -/
theorem findKey_of_first {key : String} {l : List deferredItem} {ind : Nat} {it : deferredItem}
    (hit : l[ind]? = some it) (hk : it.key = key)
    (hfirst : ∀ j, j < ind → ∀ jt, l[j]? = some jt → jt.key ≠ key) :
    findKey key l = some ind := by
  cases hf : findKey key l with
  | none =>
    exact absurd hk (findKey_eq_none.mp hf it (List.getElem?_mem hit))
  | some i =>
    obtain ⟨⟨it2, hit2, hk2⟩, hlt⟩ := findKey_eq_some hf
    rcases Nat.lt_trichotomy i ind with hlt1 | heq | hgt
    · exact absurd hk2 (hfirst i hlt1 it2 hit2)
    · rw [heq]
    · exact absurd hk (hlt ind hgt it hit)

theorem SetDeferred_items (ctx : DeferredContext) (key : String) (buf : Option (List Nat))
    (size : Int) (url : String) (bail tracing ign : Bool) (ty : Nat) :
    (SetDeferred ctx key buf size url bail tracing ign ty).deferredItems =
      match findKey key ctx.deferredItems with
      | some ind => ctx.deferredItems.set ind ⟨ty, key, buf, size, url, bail, tracing, ign⟩
      | none => ctx.deferredItems ++ [⟨ty, key, buf, size, url, bail, tracing, ign⟩] := by
  unfold SetDeferred
  by_cases h0 : ctx.deferredItems.length = 0
  · simp only [h0, if_true]
    cases hf : findKey key (startTimer ctx).deferredItems <;>
      simp [startTimer, KickTimer] at hf ⊢ <;> simp [hf]
  · simp only [h0, if_false]
    cases hf : findKey key ctx.deferredItems <;> simp [KickTimer]

theorem RemoveDeferred_items (ctx : DeferredContext) (key : String) :
    (RemoveDeferred ctx key).deferredItems = removeKey key ctx.deferredItems := by
  unfold RemoveDeferred
  by_cases h0 : (removeKey key ctx.deferredItems).length = 0
  · simp [h0, stopTimer]
  · simp [h0]

theorem removeKey_of_not_mem {key : String} {l : List deferredItem}
    (h : ∀ it ∈ l, it.key ≠ key) : removeKey key l = l := by
  induction l with
  | nil => rfl
  | cons a l ih =>
    have ha : a.key ≠ key := h a (List.mem_cons_self _ _)
    simp [removeKey, ha, ih (fun it hit => h it (List.mem_cons_of_mem _ hit))]

theorem filter_key_ne_of_not_mem {key : String} {l : List deferredItem}
    (h : ∀ it ∈ l, it.key ≠ key) : l.filter (fun it => decide (it.key ≠ key)) = l := by
  rw [List.filter_eq_self]
  intro it hit
  simpa using h it hit

theorem removeKey_eq_filter {key : String} {l : List deferredItem}
    (h : (keysOf l).Nodup) : removeKey key l = l.filter (fun it => decide (it.key ≠ key)) := by
  induction l with
  | nil => rfl
  | cons a l ih =>
    simp only [keysOf, List.map_cons, List.nodup_cons, List.mem_map, not_exists, not_and] at h
    by_cases ha : a.key = key
    · have hl : ∀ it ∈ l, it.key ≠ key := fun it hit hk => h.1 it hit (hk.trans ha.symm)
      have hd : decide (a.key ≠ key) = false := by simp [ha]
      rw [List.filter_cons, hd, filter_key_ne_of_not_mem hl]
      simp [removeKey, ha]
    · have hd : decide (a.key ≠ key) = true := by simp [ha]
      rw [List.filter_cons, hd, ← ih h.2]
      simp [removeKey, ha]

theorem upsert_find (key : String) (item : deferredItem) (hk : item.key = key)
    (l : List deferredItem) :
    (match findKey key l with
      | some ind => l.set ind item
      | none => l ++ [item]).find? (fun it => decide (it.key = key)) = some item := by
  induction l with
  | nil => simp [findKey, hk]
  | cons a l ih =>
    by_cases ha : a.key = key
    · simp [findKey, ha, hk]
    · cases hf : findKey key l with
      | none =>
        rw [hf] at ih
        simp only [findKey, ha, hf, if_false] at ih ⊢
        simpa [List.find?_cons, ha] using ih
      | some i =>
        rw [hf] at ih
        simp only [findKey, ha, hf, if_false] at ih ⊢
        simpa [List.find?_cons, ha] using ih

/-! ## Lemmas on the merge reconciler -/

theorem removeKey_sublist (key : String) (l : List deferredItem) :
    (removeKey key l).Sublist l := by
  induction l with
  | nil => exact List.Sublist.refl _
  | cons a l ih =>
    by_cases ha : a.key = key
    · simp [removeKey, ha]
    · simp only [removeKey, ha, if_false]
      exact ih.cons₂ a

theorem keysOf_nodup_of_sublist {l₁ l₂ : List deferredItem} (h : l₁.Sublist l₂)
    (hn : (keysOf l₂).Nodup) : (keysOf l₁).Nodup :=
  List.Nodup.sublist (List.Sublist.map _ h) hn

theorem mergeScan_snd (oldItem : deferredItem) (store : List deferredItem) :
    (mergeScan oldItem store).2 = removeKey oldItem.key store := by
  induction store with
  | nil => rfl
  | cons a l ih =>
    by_cases ha : oldItem.key = a.key
    · simp [mergeScan, removeKey, ha]
    · have ha2 : ¬ a.key = oldItem.key := fun h => ha h.symm
      simp [mergeScan, removeKey, ha, ha2, ih]

theorem mergeScan_fst_key (oldItem : deferredItem) (store : List deferredItem) :
    (mergeScan oldItem store).1.key = oldItem.key := by
  induction store with
  | nil => rfl
  | cons a l ih =>
    by_cases ha : oldItem.key = a.key
    · simp [mergeScan, ha]
    · simp [mergeScan, ha, ih]

theorem mergeScan_fst_of_not_mem {oldItem : deferredItem} {store : List deferredItem}
    (h : ∀ it ∈ store, it.key ≠ oldItem.key) : (mergeScan oldItem store).1 = oldItem := by
  induction store with
  | nil => rfl
  | cons a l ih =>
    have ha : ¬ oldItem.key = a.key := fun hk => h a (List.mem_cons_self _ _) hk.symm
    simp [mergeScan, ha, ih (fun it hit => h it (List.mem_cons_of_mem _ hit))]

theorem mergeScan_fst_mem {oldItem : deferredItem} {store : List deferredItem}
    (h : ∃ it ∈ store, it.key = oldItem.key) : (mergeScan oldItem store).1 ∈ store := by
  induction store with
  | nil => simp at h
  | cons a l ih =>
    by_cases ha : oldItem.key = a.key
    · simp [mergeScan, ha]
    · have : ∃ it ∈ l, it.key = oldItem.key := by
        obtain ⟨it, hit, hk⟩ := h
        rcases List.mem_cons.mp hit with rfl | hl
        · exact absurd hk.symm ha
        · exact ⟨it, hl, hk⟩
      simp only [mergeScan, ha, if_false]
      exact List.mem_cons_of_mem _ (ih this)

theorem mergeScan_keeps (oldItem : deferredItem) {x : deferredItem} {store : List deferredItem}
    (h : x ∈ store) : x = (mergeScan oldItem store).1 ∨ x ∈ (mergeScan oldItem store).2 := by
  induction store with
  | nil => simp at h
  | cons a l ih =>
    by_cases ha : oldItem.key = a.key
    · rcases List.mem_cons.mp h with rfl | hl
      · simp [mergeScan, ha]
      · simp [mergeScan, ha, hl]
    · simp only [mergeScan, ha, if_false]
      rcases List.mem_cons.mp h with rfl | hl
      · right; exact List.mem_cons_self _ _
      · rcases ih hl with h1 | h2
        · left; exact h1
        · right; exact List.mem_cons_of_mem _ h2

theorem mergeLoop_nil_store (notSentReqs : List deferredItem) :
    mergeLoop notSentReqs [] = (notSentReqs, []) := by
  induction notSentReqs with
  | nil => rfl
  | cons a l ih => simp [mergeLoop, mergeScan, ih]

theorem mergeLoop_fst_keys (notSentReqs store : List deferredItem) :
    keysOf (mergeLoop notSentReqs store).1 = keysOf notSentReqs := by
  induction notSentReqs generalizing store with
  | nil => rfl
  | cons a l ih =>
    simp only [mergeLoop, keysOf, List.map_cons, mergeScan_fst_key]
    exact congrArg _ (ih _)

theorem mergeLoop_fst_length (notSentReqs store : List deferredItem) :
    (mergeLoop notSentReqs store).1.length = notSentReqs.length := by
  have := congrArg List.length (mergeLoop_fst_keys notSentReqs store)
  simpa [keysOf] using this

theorem mergeLoop_snd_sublist (notSentReqs store : List deferredItem) :
    (mergeLoop notSentReqs store).2.Sublist store := by
  induction notSentReqs generalizing store with
  | nil => exact List.Sublist.refl _
  | cons a l ih =>
    simp only [mergeLoop, mergeScan_snd]
    exact (ih _).trans (removeKey_sublist _ _)

theorem mergeLoop_snd_eq_filter (notSentReqs store : List deferredItem)
    (hs : (keysOf store).Nodup) :
    (mergeLoop notSentReqs store).2 =
      store.filter (fun it => decide (it.key ∉ keysOf notSentReqs)) := by
  induction notSentReqs generalizing store with
  | nil => simp [mergeLoop, keysOf]
  | cons a l ih =>
    simp only [mergeLoop, mergeScan_snd]
    rw [ih _ (keysOf_nodup_of_sublist (removeKey_sublist _ _) hs), removeKey_eq_filter hs,
      List.filter_filter]
    apply List.filter_congr
    intro it _
    simp only [keysOf, List.map_cons, List.mem_cons, not_or, Bool.decide_and]
    rw [Bool.and_comm]

theorem mergeLoop_keeps {x : deferredItem} (notSentReqs store : List deferredItem)
    (h : x ∈ store) :
    x ∈ (mergeLoop notSentReqs store).1 ∨ x ∈ (mergeLoop notSentReqs store).2 := by
  induction notSentReqs generalizing store with
  | nil => right; exact h
  | cons a l ih =>
    simp only [mergeLoop]
    rcases mergeScan_keeps a h with h1 | h2
    · left; rw [h1]; exact List.mem_cons_self _ _
    · rcases ih _ h2 with h3 | h4
      · left; exact List.mem_cons_of_mem _ h3
      · right; exact h4

theorem mergeQueuesNoLock_items (ctx : DeferredContext) (notSentReqs : List deferredItem) :
    (mergeQueuesNoLock ctx notSentReqs).deferredItems =
      (mergeLoop notSentReqs ctx.deferredItems).1 ++
        (mergeLoop notSentReqs ctx.deferredItems).2 := by
  unfold mergeQueuesNoLock
  by_cases h : ctx.deferredItems.length > 0
  · simp [h]
  · have h0 : ctx.deferredItems = [] := by
      cases hl : ctx.deferredItems with
      | nil => rfl
      | cons a l => simp [hl] at h
    simp [h0, mergeLoop_nil_store]

theorem mergeBack_items (ctx : DeferredContext) (notSentReqs : List deferredItem) :
    (mergeBack ctx notSentReqs).deferredItems =
      (mergeLoop notSentReqs ctx.deferredItems).1 ++
        (mergeLoop notSentReqs ctx.deferredItems).2 := by
  unfold mergeBack
  by_cases h : (mergeQueuesNoLock ctx notSentReqs).deferredItems.length = 0
  · simp only [h, if_true, stopTimer]
    exact mergeQueuesNoLock_items ctx notSentReqs
  · simp only [h, if_false]
    exact mergeQueuesNoLock_items ctx notSentReqs

/-- Merging two lists with pairwise distinct keys gives pairwise distinct keys. -/
theorem merge_keys_nodup (notSentReqs store : List deferredItem)
    (hn : (keysOf notSentReqs).Nodup) (hs : (keysOf store).Nodup) :
    (keysOf ((mergeLoop notSentReqs store).1 ++ (mergeLoop notSentReqs store).2)).Nodup := by
  have h2 := mergeLoop_snd_eq_filter notSentReqs store hs
  unfold keysOf at *
  rw [List.map_append, List.nodup_append]
  refine ⟨?_, ?_, ?_⟩
  · have := mergeLoop_fst_keys notSentReqs store
    unfold keysOf at this
    rw [this]; exact hn
  · exact List.Nodup.sublist (List.Sublist.map _ (mergeLoop_snd_sublist _ _)) hs
  · intro k hk1 hk2
    have h1 := mergeLoop_fst_keys notSentReqs store
    unfold keysOf at h1
    rw [h1] at hk1
    rw [h2] at hk2
    obtain ⟨it, hit, rfl⟩ := List.mem_map.mp hk2
    have := (List.mem_filter.mp hit).2
    simp at this
    obtain ⟨jt, hjt, hjk⟩ := List.mem_map.mp hk1
    exact this jt hjt hjk

/-! ## The keys of the batch through a round -/

theorem innerLoop_keys (hasHandler : Bool) (send : Sender) (f : TypePriorityCheckFunction)
    (l : List deferredItem) (st : RoundState) :
    keysOf (innerLoop hasHandler send f l st).1 = keysOf l := by
  induction l generalizing st with
  | nil => rfl
  | cons a l ih =>
    unfold innerLoop
    split
    · simp only [keysOf, List.map_cons]; exact congrArg _ (ih st)
    · split
      · simp only [keysOf, List.map_cons]; exact congrArg _ (ih st)
      · split
        · simp only [keysOf, List.map_cons]; exact congrArg _ (ih st)
        · split
          · rfl
          · simp only [keysOf, List.map_cons]; exact congrArg _ (ih _)

theorem priorityLoop_keys (hasHandler : Bool) (send : Sender)
    (fs : List TypePriorityCheckFunction) (reqs : List deferredItem) (st : RoundState) :
    keysOf (priorityLoop hasHandler send fs reqs st).1 = keysOf reqs := by
  induction fs generalizing reqs st with
  | nil => rfl
  | cons f fs ih =>
    unfold priorityLoop
    split
    · exact innerLoop_keys _ _ _ _ _
    · rw [ih, innerLoop_keys]

theorem notSentOf_sublist (sent : Nat) (reqs : List deferredItem) :
    (notSentOf sent reqs).Sublist reqs := by
  unfold notSentOf
  split
  · exact List.Sublist.refl _
  · exact List.filter_sublist _

theorem sendRound_notSent_keys_nodup (ctx : DeferredContext) (send : Sender)
    (reqs : List deferredItem) (h : (keysOf reqs).Nodup) :
    (keysOf (sendRound ctx send reqs).notSentReqs).Nodup := by
  apply keysOf_nodup_of_sublist (notSentOf_sublist _ _)
  rw [priorityLoop_keys]
  exact h

theorem SetDeferred_keys_nodup (ctx : DeferredContext) (key : String) (buf : Option (List Nat))
    (size : Int) (url : String) (bail tracing ign : Bool) (ty : Nat)
    (h : (keysOf ctx.deferredItems).Nodup) :
    (keysOf (SetDeferred ctx key buf size url bail tracing ign ty).deferredItems).Nodup := by
  rw [SetDeferred_items]
  cases hf : findKey key ctx.deferredItems with
  | none =>
    have hno := findKey_eq_none.mp hf
    simp only [keysOf, List.map_append, List.map_cons, List.map_nil]
    rw [List.nodup_append]
    refine ⟨h, by simp, ?_⟩
    intro k hk1 hk2
    simp only [List.mem_singleton] at hk2
    obtain ⟨it, hit, hk⟩ := List.mem_map.mp hk1
    exact hno it hit (hk.trans hk2)
  | some ind =>
    obtain ⟨⟨it, hit, hk⟩, _⟩ := findKey_eq_some hf
    have hlt : ind < ctx.deferredItems.length := (List.getElem?_eq_some_iff.mp hit).1
    have hget : ctx.deferredItems[ind] = it := (List.getElem?_eq_some_iff.mp hit).2
    have : keysOf (ctx.deferredItems.set ind ⟨ty, key, buf, size, url, bail, tracing, ign⟩) =
        keysOf ctx.deferredItems := by
      unfold keysOf
      rw [List.map_set]
      apply List.ext_getElem (by simp)
      intro n h1 h2
      by_cases hn : ind = n
      · subst hn
        simp [List.getElem_set, hget, hk]
      · simp [List.getElem_set, hn]
    simpa [this] using h

theorem RemoveDeferred_keys_nodup (ctx : DeferredContext) (key : String)
    (h : (keysOf ctx.deferredItems).Nodup) :
    (keysOf (RemoveDeferred ctx key).deferredItems).Nodup := by
  rw [RemoveDeferred_items]
  exact keysOf_nodup_of_sublist (removeKey_sublist _ _) h

theorem finishRound_keys_nodup (ctx : DeferredContext) (send : Sender)
    (reqs : List deferredItem) (hs : (keysOf ctx.deferredItems).Nodup)
    (hr : (keysOf reqs).Nodup) :
    (keysOf (finishRound ctx send reqs).ctx.deferredItems).Nodup := by
  unfold finishRound
  simp only [mergeBack_items]
  exact merge_keys_nodup _ _ (sendRound_notSent_keys_nodup ctx send reqs hr) hs

/-- The invariant of the controller: pairwise distinct keys in the store and in
the batch of the round in progress. -/
theorem step_keys_nodup (s : System) (op : Op)
    (hs : (keysOf s.ctx.deferredItems).Nodup)
    (hb : ∀ b, s.inflight = some b → (keysOf b).Nodup) :
    (keysOf (step s op).ctx.deferredItems).Nodup ∧
      ∀ b, (step s op).inflight = some b → (keysOf b).Nodup := by
  cases op with
  | setDeferred key buf size url bail tracing ign ty =>
    exact ⟨SetDeferred_keys_nodup _ _ _ _ _ _ _ _ _ hs, hb⟩
  | removeDeferred key =>
    exact ⟨RemoveDeferred_keys_nodup _ _ hs, hb⟩
  | takeAll =>
    cases hi : s.inflight with
    | some b0 =>
      simp only [step, hi]
      exact ⟨hs, fun b hbb => hb b (hi.trans hbb)⟩
    | none =>
      simp only [step, hi, takeAll]
      split
      · refine ⟨by simp [keysOf], ?_⟩
        intro b hbb
        exact hb b (hi.trans hbb)
      · refine ⟨by simp [keysOf], ?_⟩
        intro b hbb
        simp only [Option.some.injEq] at hbb
        subst hbb
        exact hs
  | mergeBack send =>
    cases hi : s.inflight with
    | none =>
      simp only [step, hi]
      exact ⟨hs, fun b hbb => by simp at hbb⟩
    | some reqs =>
      simp only [step, hi]
      exact ⟨finishRound_keys_nodup _ _ _ hs (hb reqs hi), fun b hbb => by simp at hbb⟩

theorem run_keys_nodup (s : System) (ops : List Op)
    (hs : (keysOf s.ctx.deferredItems).Nodup)
    (hb : ∀ b, s.inflight = some b → (keysOf b).Nodup) :
    (keysOf (run s ops).ctx.deferredItems).Nodup ∧
      ∀ b, (run s ops).inflight = some b → (keysOf b).Nodup := by
  induction ops generalizing s with
  | nil => exact ⟨hs, hb⟩
  | cons op ops ih =>
    have := step_keys_nodup s op hs hb
    exact ih (step s op) this.1 this.2

/-! ## Producers running while a round is in progress -/

theorem mem_SetDeferred_self (ctx : DeferredContext) (key : String) (buf : Option (List Nat))
    (size : Int) (url : String) (bail tracing ign : Bool) (ty : Nat) :
    (⟨ty, key, buf, size, url, bail, tracing, ign⟩ : deferredItem) ∈
      (SetDeferred ctx key buf size url bail tracing ign ty).deferredItems := by
  have h := upsert_find key ⟨ty, key, buf, size, url, bail, tracing, ign⟩ rfl ctx.deferredItems
  rw [← SetDeferred_items] at h
  exact List.mem_of_find?_eq_some h

theorem mem_SetDeferred_other (ctx : DeferredContext) (key : String) (buf : Option (List Nat))
    (size : Int) (url : String) (bail tracing ign : Bool) (ty : Nat) {x : deferredItem}
    (hx : x ∈ ctx.deferredItems) (hk : x.key ≠ key) :
    x ∈ (SetDeferred ctx key buf size url bail tracing ign ty).deferredItems := by
  rw [SetDeferred_items]
  cases hf : findKey key ctx.deferredItems with
  | none => exact List.mem_append_left _ hx
  | some ind =>
    obtain ⟨⟨it, hit, hik⟩, _⟩ := findKey_eq_some hf
    obtain ⟨n, hn⟩ := List.getElem?_of_mem hx
    have hne : ind ≠ n := by
      intro h
      subst h
      rw [hit] at hn
      simp only [Option.some.injEq] at hn
      subst hn
      exact hk hik
    apply List.getElem?_mem (n := n)
    simp only
    rw [List.getElem?_set_ne hne]
    exact hn

theorem mem_removeKey_other {key : String} {l : List deferredItem} {x : deferredItem}
    (hx : x ∈ l) (hk : x.key ≠ key) : x ∈ removeKey key l := by
  induction l with
  | nil => simp at hx
  | cons a l ih =>
    by_cases ha : a.key = key
    · rcases List.mem_cons.mp hx with rfl | hl
      · exact absurd ha hk
      · simpa [removeKey, ha] using hl
    · simp only [removeKey, ha, if_false]
      rcases List.mem_cons.mp hx with rfl | hl
      · exact List.mem_cons_self _ _
      · exact List.mem_cons_of_mem _ (ih hl)

theorem step_producer_inflight (s : System) (op : Op) (h : op.isProducer = true) :
    (step s op).inflight = s.inflight := by
  cases op <;> simp [Op.isProducer] at h <;> rfl

theorem step_producer_keeps (s : System) (op : Op) (key : String)
    (h : op.isProducer = true ∧ op.key? ≠ some key) {x : deferredItem}
    (hx : x ∈ s.ctx.deferredItems) (hk : x.key = key) :
    x ∈ (step s op).ctx.deferredItems := by
  cases op with
  | setDeferred key2 buf size url bail tracing ign ty =>
    have hne : x.key ≠ key2 := fun h2 => h.2 (by simp [Op.key?, ← h2, hk])
    exact mem_SetDeferred_other _ _ _ _ _ _ _ _ _ hx hne
  | removeDeferred key2 =>
    have hne : x.key ≠ key2 := fun h2 => h.2 (by simp [Op.key?, ← h2, hk])
    simp only [step, RemoveDeferred_items]
    exact mem_removeKey_other hx hne
  | takeAll => simp [Op.isProducer] at h
  | mergeBack send => simp [Op.isProducer] at h

theorem run_producers_keeps (s : System) (ops : List Op) (key : String)
    (h : ∀ op ∈ ops, op.isProducer = true ∧ op.key? ≠ some key) {x : deferredItem}
    (hx : x ∈ s.ctx.deferredItems) (hk : x.key = key) :
    x ∈ (run s ops).ctx.deferredItems ∧ (run s ops).inflight = s.inflight := by
  induction ops generalizing s with
  | nil => exact ⟨hx, rfl⟩
  | cons op ops ih =>
    have hop := h op (List.mem_cons_self _ _)
    have := ih (step s op) (fun o ho => h o (List.mem_cons_of_mem _ ho))
      (step_producer_keeps s op key hop hx hk)
    exact ⟨this.1, this.2.trans (step_producer_inflight s op hop.1)⟩

theorem filter_key_eq_singleton {l : List deferredItem} {x : deferredItem}
    (hn : (keysOf l).Nodup) (hx : x ∈ l) :
    l.filter (fun it => decide (it.key = x.key)) = [x] := by
  induction l with
  | nil => simp at hx
  | cons a l ih =>
    simp only [keysOf, List.map_cons, List.nodup_cons, List.mem_map, not_exists, not_and] at hn
    rcases List.mem_cons.mp hx with rfl | hl
    · have : l.filter (fun it => decide (it.key = x.key)) = [] := by
        rw [List.filter_eq_nil_iff]
        intro it hit
        simpa using hn.1 it hit
      simp [List.filter_cons, this]
    · have ha : ¬ a.key = x.key := fun h => hn.1 x hl h.symm
      simp only [List.filter_cons, ha, decide_False, Bool.false_eq_true, if_false]
      exact ih hn.2 hl

theorem step_mergeBack_of_inflight {s : System} {reqs : List deferredItem} (send : Sender)
    (h : s.inflight = some reqs) :
    step s (.mergeBack send) = { ctx := (finishRound s.ctx send reqs).ctx, inflight := none } := by
  simp only [step, h]

theorem finishRound_keeps (ctx : DeferredContext) (send : Sender) (reqs : List deferredItem)
    {x : deferredItem} (hx : x ∈ ctx.deferredItems) :
    x ∈ (finishRound ctx send reqs).ctx.deferredItems := by
  unfold finishRound
  simp only [mergeBack_items]
  exact List.mem_append.mpr (mergeLoop_keeps _ _ hx)

/-! ## The loops of the round against their reference -/

theorem hasPayload_iff {item : deferredItem} :
    hasPayload item = true ↔ ∃ b, item.buf = some b ∧ b.length ≠ 0 := by
  unfold hasPayload
  cases item.buf with
  | none => simp
  | some b => simp

theorem trySend_eq (hasHandler : Bool) (send : Sender) (item : deferredItem) (b : List Nat)
    (st : RoundState) (hb : item.buf = some b) (hst : st.exit = false) :
    trySend hasHandler send item b st =
      { exit := (callOf send item st.iteration).halts
        sent := st.sent
        iteration := nextIteration st.iteration
        calls := st.calls ++ [callOf send item st.iteration]
        handled :=
          if hasHandler then st.handled ++ [(callOf send item st.iteration).event]
          else st.handled } := by
  simp [trySend, callOf, SendCall.halts, SendCall.event, nextIteration, hb, hst]

theorem applyCalls_nil (hasHandler : Bool) (st : RoundState) :
    applyCalls hasHandler st [] = st := by
  cases st
  simp [applyCalls]

theorem applyCalls_exit_halting (hasHandler : Bool) (st : RoundState) (c : SendCall)
    (hst : st.exit = false) (hc : c.halts = true) :
    applyCalls hasHandler st [c] =
      { exit := true, sent := st.sent, iteration := nextIteration st.iteration,
        calls := st.calls ++ [c],
        handled := if hasHandler then st.handled ++ [c.event] else st.handled } := by
  simp [applyCalls, hst, hc]

theorem applyCalls_cons (hasHandler : Bool) (st : RoundState) (c : SendCall)
    (cs : List SendCall) (hc : c.halts = false) :
    applyCalls hasHandler st (c :: cs) =
      applyCalls hasHandler
        { exit := st.exit, sent := st.sent + 1, iteration := nextIteration st.iteration,
          calls := st.calls ++ [c],
          handled := if hasHandler then st.handled ++ [c.event] else st.handled } cs := by
  cases hasHandler <;>
    simp [applyCalls, hc, List.filter_cons, Nat.add_assoc, Nat.add_comm 1]

theorem innerLoop_state (hasHandler : Bool) (send : Sender) (f : TypePriorityCheckFunction)
    (l : List deferredItem) (st : RoundState) (hst : st.exit = false) :
    (innerLoop hasHandler send f l st).2 =
      applyCalls hasHandler st (seqCalls send (l.filter (eligible f)) st.iteration) := by
  induction l generalizing st with
  | nil => simp [innerLoop, seqCalls, applyCalls_nil]
  | cons a l ih =>
    unfold innerLoop
    split
    · rename_i hf
      have he : eligible f a = false := by
        simp only [Bool.not_eq_true'] at hf
        simp [eligible, hf]
      simp only [List.filter_cons, he, Bool.false_eq_true, if_false]
      exact ih st hst
    · rename_i hf
      simp only [Bool.not_eq_true', Bool.not_eq_false] at hf
      split
      · rename_i hbuf
        have he : eligible f a = false := by simp [eligible, hasPayload, hbuf]
        simp only [List.filter_cons, he, Bool.false_eq_true, if_false]
        exact ih st hst
      · rename_i b hbuf
        split
        · rename_i hlen
          have he : eligible f a = false := by simp [eligible, hasPayload, hbuf, hlen]
          simp only [List.filter_cons, he, Bool.false_eq_true, if_false]
          exact ih st hst
        · rename_i hlen
          have he : eligible f a = true := by simp [eligible, hasPayload, hbuf, hlen, hf]
          simp only [List.filter_cons, he, if_true]
          rw [trySend_eq hasHandler send a b st hbuf hst]
          by_cases hh : (callOf send a st.iteration).halts = true
          · simp only [hh, if_true, seqCalls]
            rw [applyCalls_exit_halting hasHandler st _ hst hh]
          · simp only [Bool.not_eq_true] at hh
            simp only [hh, Bool.false_eq_true, if_false, seqCalls]
            rw [ih _ rfl, applyCalls_cons hasHandler st _ _ hh, hst]

/-- The inner loop steps over an item it does not offer to the transmission primitive. -/
theorem innerLoop_cons_skip (hasHandler : Bool) (send : Sender) (f : TypePriorityCheckFunction)
    (a : deferredItem) (l : List deferredItem) (st : RoundState)
    (he : eligible f a = false) :
    innerLoop hasHandler send f (a :: l) st =
      (a :: (innerLoop hasHandler send f l st).1, (innerLoop hasHandler send f l st).2) := by
  unfold eligible hasPayload at he
  rw [innerLoop]
  split
  · rfl
  · rename_i hf
    simp only [Bool.not_eq_true', Bool.not_eq_false] at hf
    split
    · rfl
    · rename_i b hbuf
      split
      · rfl
      · rename_i hlen
        simp [hf, hbuf, hlen] at he

theorem innerLoop_cons_halt (hasHandler : Bool) (send : Sender) (f : TypePriorityCheckFunction)
    (a : deferredItem) (l : List deferredItem) (st : RoundState)
    (he : eligible f a = true) (hst : st.exit = false)
    (hh : (callOf send a st.iteration).halts = true) :
    innerLoop hasHandler send f (a :: l) st =
      (a :: l, applyCalls hasHandler st [callOf send a st.iteration]) := by
  unfold eligible at he
  simp only [Bool.and_eq_true] at he
  obtain ⟨b, hbuf, hlen⟩ := hasPayload_iff.mp he.2
  rw [innerLoop]
  simp only [he.1, Bool.not_true, Bool.false_eq_true, if_false, hbuf, hlen,
    trySend_eq hasHandler send a b st hbuf hst, hh, if_true]
  rw [applyCalls_exit_halting hasHandler st _ hst hh]

theorem innerLoop_cons_go (hasHandler : Bool) (send : Sender) (f : TypePriorityCheckFunction)
    (a : deferredItem) (l : List deferredItem) (st : RoundState)
    (he : eligible f a = true) (hst : st.exit = false)
    (hh : (callOf send a st.iteration).halts = false) :
    innerLoop hasHandler send f (a :: l) st =
      (clearBuf a ::
        (innerLoop hasHandler send f l
          { exit := false, sent := st.sent + 1, iteration := nextIteration st.iteration,
            calls := st.calls ++ [callOf send a st.iteration],
            handled := if hasHandler then st.handled ++ [(callOf send a st.iteration).event]
              else st.handled }).1,
       (innerLoop hasHandler send f l
          { exit := false, sent := st.sent + 1, iteration := nextIteration st.iteration,
            calls := st.calls ++ [callOf send a st.iteration],
            handled := if hasHandler then st.handled ++ [(callOf send a st.iteration).event]
              else st.handled }).2) := by
  unfold eligible at he
  simp only [Bool.and_eq_true] at he
  obtain ⟨b, hbuf, hlen⟩ := hasPayload_iff.mp he.2
  rw [innerLoop]
  simp only [he.1, Bool.not_true, Bool.false_eq_true, if_false, hbuf, hlen,
    trySend_eq hasHandler send a b st hbuf hst, hh, clearBuf]

/-! ## The reference sequence of calls -/

theorem seqCalls_items_initial (send : Sender) (l : List deferredItem) (i : Int) :
    ((seqCalls send l i).map (fun c => c.item)) <+: l := by
  induction l generalizing i with
  | nil => simp [seqCalls]
  | cons a l ih =>
    unfold seqCalls
    split
    · simp [callOf]
    · simp only [List.map_cons]
      have : (callOf send a i).item = a := rfl
      rw [this]
      exact (List.prefix_cons_inj a).mpr (ih _)

theorem seqCalls_cons_halt (send : Sender) (a : deferredItem) (l : List deferredItem) (i : Int)
    (h : (callOf send a i).halts = true) : seqCalls send (a :: l) i = [callOf send a i] := by
  simp [seqCalls, h]

theorem seqCalls_cons_go (send : Sender) (a : deferredItem) (l : List deferredItem) (i : Int)
    (h : (callOf send a i).halts = false) :
    seqCalls send (a :: l) i = callOf send a i :: seqCalls send l (nextIteration i) := by
  simp [seqCalls, h]

theorem seqCalls_no_halt (send : Sender) (l : List deferredItem) (i : Int)
    (h : (seqCalls send l i).any SendCall.halts = false) :
    (seqCalls send l i).map (fun c => c.item) = l := by
  induction l generalizing i with
  | nil => simp [seqCalls]
  | cons a l ih =>
    cases hh : (callOf send a i).halts with
    | true =>
      rw [seqCalls_cons_halt send a l i hh] at h
      simp [hh] at h
    | false =>
      rw [seqCalls_cons_go send a l i hh] at h ⊢
      simp only [List.any_cons, Bool.or_eq_false_iff] at h
      simp only [List.map_cons]
      rw [ih _ h.2]
      rfl

theorem seqCalls_halts_last (send : Sender) (l : List deferredItem) (i : Int) (c : SendCall)
    (hc : c ∈ seqCalls send l i) (hh : c.halts = true) :
    (seqCalls send l i).getLast? = some c := by
  induction l generalizing i with
  | nil => simp [seqCalls] at hc
  | cons a l ih =>
    cases ha : (callOf send a i).halts with
    | true =>
      rw [seqCalls_cons_halt send a l i ha] at hc ⊢
      simp only [List.mem_singleton] at hc
      simp [hc]
    | false =>
      rw [seqCalls_cons_go send a l i ha] at hc ⊢
      rcases List.mem_cons.mp hc with h1 | h2
      · rw [h1, ha] at hh
        cases hh
      · have h3 := ih _ h2
        cases hs : seqCalls send l (nextIteration i) with
        | nil => rw [hs] at h2; cases h2
        | cons x xs =>
          rw [hs] at h3
          rw [List.getLast?_cons_cons]
          exact h3

theorem seqCalls_append (send : Sender) (l₁ l₂ : List deferredItem) (i : Int) :
    seqCalls send (l₁ ++ l₂) i =
      if (seqCalls send l₁ i).any SendCall.halts then seqCalls send l₁ i
      else seqCalls send l₁ i ++ seqCalls send l₂ (nextIteration^[(seqCalls send l₁ i).length] i) := by
  induction l₁ generalizing i with
  | nil => simp [seqCalls]
  | cons a l ih =>
    cases ha : (callOf send a i).halts with
    | true =>
      rw [List.cons_append, seqCalls_cons_halt send a _ i ha, seqCalls_cons_halt send a _ i ha]
      simp [ha]
    | false =>
      rw [List.cons_append, seqCalls_cons_go send a _ i ha, seqCalls_cons_go send a _ i ha,
        ih (nextIteration i)]
      simp only [List.any_cons, ha, Bool.false_or, List.length_cons, Function.iterate_succ,
        Function.comp_apply]
      split <;> simp

theorem seqCalls_item_mem (send : Sender) (l : List deferredItem) (i : Int) (c : SendCall)
    (hc : c ∈ seqCalls send l i) : c.item ∈ l :=
  (seqCalls_items_initial send l i).subset (List.mem_map_of_mem (fun c => c.item) hc)

theorem doneOf_of_no_halt (cs : List SendCall) (h : cs.any SendCall.halts = false) :
    doneOf cs = cs.map (fun c => c.item) := by
  unfold doneOf
  congr 1
  rw [List.filter_eq_self]
  intro c hc
  have := List.any_eq_false.mp h c hc
  simpa using this

theorem doneOf_nil : doneOf [] = [] := rfl

theorem doneOf_cons_halt (c : SendCall) (cs : List SendCall) (h : c.halts = true) :
    doneOf (c :: cs) = doneOf cs := by
  simp [doneOf, List.filter_cons, h]

theorem doneOf_cons_go (c : SendCall) (cs : List SendCall) (h : c.halts = false) :
    doneOf (c :: cs) = c.item :: doneOf cs := by
  simp [doneOf, List.filter_cons, h]

theorem doneOf_append (cs₁ cs₂ : List SendCall) :
    doneOf (cs₁ ++ cs₂) = doneOf cs₁ ++ doneOf cs₂ := by
  simp [doneOf]

theorem mem_doneOf {cs : List SendCall} {x : deferredItem} :
    x ∈ doneOf cs ↔ ∃ c ∈ cs, c.halts = false ∧ c.item = x := by
  simp [doneOf, List.mem_filter, and_assoc]

theorem mem_doneOf_seqCalls (send : Sender) (l : List deferredItem) (i : Int) {x : deferredItem}
    (h : x ∈ doneOf (seqCalls send l i)) : x ∈ l := by
  obtain ⟨c, hc, _, rfl⟩ := mem_doneOf.mp h
  exact seqCalls_item_mem send l i c hc

theorem markDone_nil (x : deferredItem) : markDone [] x = x := by
  simp [markDone]

theorem map_markDone_nil (l : List deferredItem) : l.map (markDone []) = l := by
  induction l with
  | nil => rfl
  | cons a l ih => simp [markDone_nil, ih]

theorem markDone_markDone (d₁ d₂ : List deferredItem) (x : deferredItem) :
    markDone d₂ (markDone d₁ x) = markDone (d₁ ++ d₂) x := by
  by_cases h1 : x ∈ d₁
  · have hc : clearBuf (clearBuf x) = clearBuf x := rfl
    by_cases h2 : clearBuf x ∈ d₂
    · simp [markDone, h1, h2, hc]
    · simp [markDone, h1, h2]
  · by_cases h2 : x ∈ d₂
    · simp [markDone, h1, h2]
    · simp [markDone, h1, h2]

theorem keysOf_map_markDone (d : List deferredItem) (l : List deferredItem) :
    keysOf (l.map (markDone d)) = keysOf l := by
  unfold keysOf
  rw [List.map_map]
  apply List.map_congr_left
  intro x _
  simp only [Function.comp_apply, markDone]
  split <;> rfl

theorem applyCalls_append (hasHandler : Bool) (st : RoundState) (cs₁ cs₂ : List SendCall) :
    applyCalls hasHandler (applyCalls hasHandler st cs₁) cs₂ =
      applyCalls hasHandler st (cs₁ ++ cs₂) := by
  cases hasHandler <;>
    simp [applyCalls, Bool.or_assoc, Nat.add_assoc, Function.iterate_add_apply,
      Nat.add_comm cs₁.length]

/-! ## The batch after the loops -/

theorem innerLoop_list (hasHandler : Bool) (send : Sender) (f : TypePriorityCheckFunction)
    (l : List deferredItem) (st : RoundState) (hst : st.exit = false)
    (hn : (keysOf l).Nodup) :
    (innerLoop hasHandler send f l st).1 =
      l.map (markDone (doneOf (seqCalls send (l.filter (eligible f)) st.iteration))) := by
  induction l generalizing st with
  | nil => simp [innerLoop]
  | cons a l ih =>
    simp only [keysOf, List.map_cons, List.nodup_cons, List.mem_map, not_exists, not_and] at hn
    cases he : eligible f a with
    | false =>
      rw [innerLoop_cons_skip hasHandler send f a l st he]
      simp only [List.filter_cons, he, Bool.false_eq_true, if_false, List.map_cons]
      rw [ih st hst hn.2]
      congr 1
      have : a ∉ doneOf (seqCalls send (l.filter (eligible f)) st.iteration) := by
        intro hmem
        have := mem_doneOf_seqCalls send _ _ hmem
        have := (List.mem_filter.mp this).2
        rw [he] at this
        cases this
      simp [markDone, this]
    | true =>
      simp only [List.filter_cons, he, if_true]
      cases hh : (callOf send a st.iteration).halts with
      | true =>
        rw [innerLoop_cons_halt hasHandler send f a l st he hst hh,
          seqCalls_cons_halt send a _ _ hh, doneOf_cons_halt _ _ hh, doneOf_nil,
          map_markDone_nil]
      | false =>
        rw [innerLoop_cons_go hasHandler send f a l st he hst hh,
          seqCalls_cons_go send a _ _ hh, doneOf_cons_go _ _ hh]
        simp only [List.map_cons]
        rw [ih _ rfl hn.2]
        have ha : (callOf send a st.iteration).item = a := rfl
        rw [ha]
        congr 1
        · simp [markDone]
        · apply List.map_congr_left
          intro x hx
          have hne : x ≠ a := fun hxa => hn.1 x hx (by rw [hxa])
          simp [markDone, hne]

theorem innerLoop_list_noexit (hasHandler : Bool) (send : Sender)
    (f : TypePriorityCheckFunction) (l : List deferredItem) (st : RoundState)
    (hst : st.exit = false)
    (hex : (innerLoop hasHandler send f l st).2.exit = false) :
    (innerLoop hasHandler send f l st).1 =
      l.map (fun it => if eligible f it then clearBuf it else it) := by
  induction l generalizing st with
  | nil => simp [innerLoop]
  | cons a l ih =>
    cases he : eligible f a with
    | false =>
      rw [innerLoop_cons_skip hasHandler send f a l st he] at hex ⊢
      simp only [List.map_cons, he, Bool.false_eq_true, if_false]
      rw [ih st hst hex]
    | true =>
      cases hh : (callOf send a st.iteration).halts with
      | true =>
        rw [innerLoop_cons_halt hasHandler send f a l st he hst hh] at hex
        simp [applyCalls, hh] at hex
      | false =>
        rw [innerLoop_cons_go hasHandler send f a l st he hst hh] at hex ⊢
        simp only [List.map_cons, he, if_true]
        rw [ih _ rfl hex]

/-! ## The order of the sends -/

theorem priorityOrder_congr (fs : List TypePriorityCheckFunction) (l₁ l₂ : List deferredItem)
    (h : l₁.filter hasPayload = l₂.filter hasPayload) :
    priorityOrder fs l₁ = priorityOrder fs l₂ := by
  induction fs generalizing l₁ l₂ with
  | nil => rfl
  | cons f fs ih =>
    simp only [priorityOrder]
    have h1 : ∀ l : List deferredItem,
        l.filter (eligible f) = (l.filter hasPayload).filter (fun it => f it.itemType) := by
      intro l
      rw [List.filter_filter]
      rfl
    have h2 : ∀ l : List deferredItem,
        (l.filter (fun it => !f it.itemType)).filter hasPayload =
          (l.filter hasPayload).filter (fun it => !f it.itemType) := by
      intro l
      rw [List.filter_filter, List.filter_filter]
      apply List.filter_congr
      intro x _
      exact Bool.and_comm _ _
    rw [h1 l₁, h1 l₂, h]
    congr 1
    apply ih
    rw [h2 l₁, h2 l₂, h]

theorem filter_hasPayload_after_pass (f : TypePriorityCheckFunction) (l : List deferredItem) :
    (l.map (fun it => if eligible f it then clearBuf it else it)).filter hasPayload =
      (l.filter (fun it => !f it.itemType)).filter hasPayload := by
  induction l with
  | nil => rfl
  | cons a l ih =>
    simp only [List.map_cons, List.filter_cons]
    cases hf : f a.itemType with
    | true =>
      cases hp : hasPayload a with
      | true =>
        have he : eligible f a = true := by simp [eligible, hf, hp]
        have hc : hasPayload (clearBuf a) = false := rfl
        simp [he, hc, ih]
      | false =>
        have he : eligible f a = false := by simp [eligible, hf, hp]
        simp [he, hp, ih]
    | false =>
      have he : eligible f a = false := by simp [eligible, hf]
      cases hp : hasPayload a <;> simp [he, hp, ih]

theorem priorityLoop_state (hasHandler : Bool) (send : Sender)
    (fs : List TypePriorityCheckFunction) (reqs : List deferredItem) (st : RoundState)
    (hst : st.exit = false) :
    (priorityLoop hasHandler send fs reqs st).2 =
      applyCalls hasHandler st (seqCalls send (priorityOrder fs reqs) st.iteration) := by
  induction fs generalizing reqs st with
  | nil => simp [priorityLoop, priorityOrder, seqCalls, applyCalls_nil]
  | cons f fs ih =>
    have hin := innerLoop_state hasHandler send f reqs st hst
    have hexit : (innerLoop hasHandler send f reqs st).2.exit =
        (seqCalls send (reqs.filter (eligible f)) st.iteration).any SendCall.halts := by
      rw [hin]; simp [applyCalls, hst]
    rw [priorityLoop]
    simp only [priorityOrder]
    rw [seqCalls_append]
    cases hany : (seqCalls send (reqs.filter (eligible f)) st.iteration).any SendCall.halts with
    | true =>
      rw [hany] at hexit
      simp only [hexit, if_true]
      exact hin
    | false =>
      rw [hany] at hexit
      simp only [hexit, Bool.false_eq_true, if_false]
      rw [ih _ _ hexit, innerLoop_list_noexit hasHandler send f reqs st hst hexit,
        priorityOrder_congr fs _ _ (filter_hasPayload_after_pass f reqs), hin,
        applyCalls_append]
      rfl

theorem priorityLoop_list (hasHandler : Bool) (send : Sender)
    (fs : List TypePriorityCheckFunction) (reqs : List deferredItem) (st : RoundState)
    (hst : st.exit = false) (hn : (keysOf reqs).Nodup) :
    (priorityLoop hasHandler send fs reqs st).1 =
      reqs.map (markDone (doneOf (seqCalls send (priorityOrder fs reqs) st.iteration))) := by
  induction fs generalizing reqs st with
  | nil => simp [priorityLoop, priorityOrder, seqCalls, doneOf_nil, map_markDone_nil]
  | cons f fs ih =>
    have hin := innerLoop_state hasHandler send f reqs st hst
    have hli := innerLoop_list hasHandler send f reqs st hst hn
    have hexit : (innerLoop hasHandler send f reqs st).2.exit =
        (seqCalls send (reqs.filter (eligible f)) st.iteration).any SendCall.halts := by
      rw [hin]; simp [applyCalls, hst]
    rw [priorityLoop]
    simp only [priorityOrder]
    rw [seqCalls_append]
    cases hany : (seqCalls send (reqs.filter (eligible f)) st.iteration).any SendCall.halts with
    | true =>
      rw [hany] at hexit
      simp only [hexit, if_true]
      exact hli
    | false =>
      rw [hany] at hexit
      simp only [hexit, Bool.false_eq_true, if_false]
      have hk : (keysOf (innerLoop hasHandler send f reqs st).1).Nodup := by
        rw [innerLoop_keys]; exact hn
      rw [ih _ _ hexit hk, doneOf_append]
      have h1 := innerLoop_list_noexit hasHandler send f reqs st hst hexit
      rw [priorityOrder_congr fs _ _
        ((congrArg (List.filter hasPayload) h1).trans (filter_hasPayload_after_pass f reqs))]
      have hit : (innerLoop hasHandler send f reqs st).2.iteration =
          nextIteration^[(seqCalls send (reqs.filter (eligible f)) st.iteration).length]
            st.iteration := by
        rw [hin]; rfl
      rw [hit, hli, List.map_map]
      apply List.map_congr_left
      intro x _
      exact markDone_markDone _ _ x

/-! ## The round as a whole -/

theorem sendRound_calls (ctx : DeferredContext) (send : Sender) (reqs : List deferredItem) :
    (sendRound ctx send reqs).calls =
      seqCalls send (priorityOrder ctx.priorityCheckFunctions reqs) ctx.iteration := by
  simp only [sendRound]
  rw [priorityLoop_state _ _ _ _ _ rfl]
  simp [applyCalls, roundStart]

theorem sendRound_exit (ctx : DeferredContext) (send : Sender) (reqs : List deferredItem) :
    (sendRound ctx send reqs).exit = (sendRound ctx send reqs).calls.any SendCall.halts := by
  rw [sendRound_calls]
  simp only [sendRound]
  rw [priorityLoop_state _ _ _ _ _ rfl]
  simp [applyCalls, roundStart]

theorem sendRound_sent (ctx : DeferredContext) (send : Sender) (reqs : List deferredItem) :
    (sendRound ctx send reqs).sent = (doneOf (sendRound ctx send reqs).calls).length := by
  rw [sendRound_calls]
  simp only [sendRound]
  rw [priorityLoop_state _ _ _ _ _ rfl]
  simp [applyCalls, roundStart, doneOf]

theorem sendRound_iteration (ctx : DeferredContext) (send : Sender) (reqs : List deferredItem) :
    (sendRound ctx send reqs).iteration =
      nextIteration^[(sendRound ctx send reqs).calls.length] ctx.iteration := by
  rw [sendRound_calls]
  simp only [sendRound]
  rw [priorityLoop_state _ _ _ _ _ rfl]
  simp [applyCalls, roundStart]

theorem debugEvents_eq (hasHandler : Bool) (l : List deferredItem) :
    debugEvents hasHandler l = if hasHandler then l.map debugEvent else [] := by
  unfold debugEvents
  cases l with
  | nil => simp
  | cons a l => cases hasHandler <;> simp [debugEvent]

theorem sendRound_handled (ctx : DeferredContext) (send : Sender) (reqs : List deferredItem) :
    (sendRound ctx send reqs).handled =
      if ctx.sentHandler then
        (sendRound ctx send reqs).calls.map SendCall.event ++
          (sendRound ctx send reqs).notSentReqs.map debugEvent
      else [] := by
  rw [sendRound_calls]
  simp only [sendRound]
  rw [priorityLoop_state _ _ _ _ _ rfl, debugEvents_eq]
  cases ctx.sentHandler <;> simp [applyCalls, roundStart]

theorem sendRound_reqs (ctx : DeferredContext) (send : Sender) (reqs : List deferredItem)
    (hn : (keysOf reqs).Nodup) :
    (sendRound ctx send reqs).reqs =
      reqs.map (markDone (doneOf (sendRound ctx send reqs).calls)) := by
  rw [sendRound_calls]
  simp only [sendRound]
  rw [priorityLoop_list _ _ _ _ _ rfl hn]
  rfl

theorem sendRound_notSent_def (ctx : DeferredContext) (send : Sender)
    (reqs : List deferredItem) :
    (sendRound ctx send reqs).notSentReqs =
      notSentOf (sendRound ctx send reqs).sent (sendRound ctx send reqs).reqs := rfl

theorem filter_isSome_map_markDone (d l : List deferredItem) :
    (l.map (markDone d)).filter (fun el => el.buf.isSome) =
      l.filter (fun it => it.buf.isSome && decide (it ∉ d)) := by
  induction l with
  | nil => rfl
  | cons a l ih =>
    simp only [List.map_cons, List.filter_cons, ih]
    by_cases ha : a ∈ d
    · simp [markDone, ha, clearBuf]
    · simp [markDone, ha]

/-- The not-sent set computed by the round, on a batch with pairwise distinct keys:
the whole batch when nothing was counted as sent, else the items with a
non-nil buffer whose call, if any, stopped the round. -/
theorem sendRound_notSent (ctx : DeferredContext) (send : Sender) (reqs : List deferredItem)
    (hn : (keysOf reqs).Nodup) :
    (sendRound ctx send reqs).notSentReqs =
      if doneOf (sendRound ctx send reqs).calls = [] then reqs
      else reqs.filter (fun it =>
        it.buf.isSome && decide (it ∉ doneOf (sendRound ctx send reqs).calls)) := by
  rw [sendRound_notSent_def, sendRound_sent, sendRound_reqs ctx send reqs hn]
  unfold notSentOf
  cases hd : doneOf (sendRound ctx send reqs).calls with
  | nil => simp [map_markDone_nil]
  | cons x xs =>
    simp only [List.length_cons, Nat.succ_ne_zero, if_false, reduceCtorEq]
    exact filter_isSome_map_markDone _ _

theorem takeAll_sendRound (ctx : DeferredContext) (send : Sender) (reqs : List deferredItem) :
    sendRound (takeAll ctx).2 send reqs = sendRound ctx send reqs := rfl

theorem mergeBack_empty_store (ctx : DeferredContext) (notSentReqs : List deferredItem)
    (h : ctx.deferredItems = []) : (mergeBack ctx notSentReqs).deferredItems = notSentReqs := by
  rw [mergeBack_items, h, mergeLoop_nil_store]
  simp

theorem handleDeferred_calls (ctx : DeferredContext) (send : Sender) :
    (handleDeferred ctx send).calls = (sendRound ctx send ctx.deferredItems).calls := by
  unfold handleDeferred
  split
  · rename_i h
    have h0 : ctx.deferredItems = [] := List.eq_nil_of_length_eq_zero h
    rw [sendRound_calls, h0]
    have : ∀ fs : List TypePriorityCheckFunction, priorityOrder fs [] = [] := by
      intro fs
      induction fs with
      | nil => rfl
      | cons f fs ih => simp [priorityOrder, ih]
    simp [this, seqCalls]
  · rfl

theorem handleDeferred_of_nonempty (ctx : DeferredContext) (send : Sender)
    (h : ctx.deferredItems ≠ []) :
    (handleDeferred ctx send).allSent =
        decide ((sendRound ctx send ctx.deferredItems).notSentReqs.length = 0) ∧
      (handleDeferred ctx send).ctx.deferredItems =
        (sendRound ctx send ctx.deferredItems).notSentReqs ∧
      (handleDeferred ctx send).handled = (sendRound ctx send ctx.deferredItems).handled := by
  have hl : ¬ (takeAll ctx).1.length = 0 := by
    intro h0
    exact h (List.eq_nil_of_length_eq_zero h0)
  unfold handleDeferred
  simp only [hl, if_false]
  refine ⟨rfl, ?_, rfl⟩
  unfold finishRound
  simp only
  rw [mergeBack_empty_store _ _ rfl]
  rfl

/-! ## Properties of the reference order -/

theorem mem_priorityOrder {fs : List TypePriorityCheckFunction} {l : List deferredItem}
    {x : deferredItem} (h : x ∈ priorityOrder fs l) : x ∈ l ∧ hasPayload x = true := by
  induction fs generalizing l with
  | nil => simp [priorityOrder] at h
  | cons f fs ih =>
    simp only [priorityOrder, List.mem_append] at h
    rcases h with h | h
    · have := List.mem_filter.mp h
      simp only [eligible, Bool.and_eq_true] at this
      exact ⟨this.1, this.2.2⟩
    · have := ih h
      exact ⟨(List.mem_filter.mp this.1).1, this.2⟩

theorem priorityOrder_nodup (fs : List TypePriorityCheckFunction) (l : List deferredItem)
    (hn : l.Nodup) : (priorityOrder fs l).Nodup := by
  induction fs generalizing l with
  | nil => simp [priorityOrder]
  | cons f fs ih =>
    simp only [priorityOrder]
    rw [List.nodup_append]
    refine ⟨hn.filter _, ih _ (hn.filter _), ?_⟩
    intro x hx1 hx2
    have h1 := (List.mem_filter.mp hx1).2
    have h2 := (List.mem_filter.mp (mem_priorityOrder hx2).1).2
    simp only [eligible, Bool.and_eq_true] at h1
    simp [h1.1] at h2

theorem nodup_of_keys_nodup {l : List deferredItem} (h : (keysOf l).Nodup) : l.Nodup :=
  List.Nodup.of_map _ h

theorem firstAccepting_cons_zero (f : TypePriorityCheckFunction)
    (fs : List TypePriorityCheckFunction) (ty : Nat) :
    decide (firstAccepting (f :: fs) ty = 0) = f ty := by
  cases hf : f ty <;> simp [firstAccepting, hf]

theorem firstAccepting_cons_succ (f : TypePriorityCheckFunction)
    (fs : List TypePriorityCheckFunction) (ty k : Nat) :
    decide (firstAccepting (f :: fs) ty = k + 1) =
      (!f ty && decide (firstAccepting fs ty = k)) := by
  cases hf : f ty <;> simp [firstAccepting, hf]

/-- The order followed by the loops is the stable order by first accepting function. -/
theorem priorityOrder_eq_byFirstAccepting (fs : List TypePriorityCheckFunction)
    (l : List deferredItem) : priorityOrder fs l = byFirstAccepting fs l := by
  induction fs generalizing l with
  | nil => simp [priorityOrder, byFirstAccepting]
  | cons f fs ih =>
    simp only [priorityOrder, byFirstAccepting, List.length_cons, List.range_succ_eq_map,
      List.flatMap_cons]
    congr 1
    · apply List.filter_congr
      intro x _
      rw [firstAccepting_cons_zero, eligible, Bool.and_comm]
    · rw [ih, byFirstAccepting, List.flatMap_def, List.flatMap_def, List.map_map]
      congr 1
      apply List.map_congr_left
      intro k _
      simp only [Function.comp_apply, Nat.succ_eq_add_one]
      rw [List.filter_filter]
      apply List.filter_congr
      intro x _
      rw [firstAccepting_cons_succ]
      cases f x.itemType <;> cases hasPayload x <;> simp

theorem priorityOrder_acceptAll_perm (user : List TypePriorityCheckFunction)
    (l : List deferredItem) :
    (priorityOrder (user ++ [fun _ => true]) l).Perm (l.filter hasPayload) := by
  induction user generalizing l with
  | nil =>
    simp only [List.nil_append, priorityOrder, List.append_nil]
    have : l.filter (eligible fun _ => true) = l.filter hasPayload := by
      apply List.filter_congr
      intro x _
      simp [eligible]
    rw [this]
  | cons f fs ih =>
    simp only [List.cons_append, priorityOrder]
    have h1 : l.filter (eligible f) = (l.filter hasPayload).filter (fun it => f it.itemType) := by
      rw [List.filter_filter]; rfl
    have h2 : (l.filter (fun it => !f it.itemType)).filter hasPayload =
        (l.filter hasPayload).filter (fun it => !f it.itemType) := by
      rw [List.filter_filter, List.filter_filter]
      apply List.filter_congr
      intro x _
      exact Bool.and_comm _ _
    rw [h1]
    refine (List.Perm.append_left _ ((ih _).trans (by rw [h2]))).trans ?_
    exact List.filter_append_perm _ _

theorem seqCalls_head (send : Sender) (a : deferredItem) (l : List deferredItem) (i : Int) :
    (seqCalls send (a :: l) i)[0]? = some (callOf send a i) := by
  cases hh : (callOf send a i).halts with
  | true => rw [seqCalls_cons_halt send a l i hh]; simp
  | false => rw [seqCalls_cons_go send a l i hh]; simp

/-- After a call that does not stop the round, the next item of the order is sent. -/
theorem seqCalls_next (send : Sender) (l : List deferredItem) (i : Int) (k : Nat)
    (c : SendCall) (next : deferredItem)
    (hc : (seqCalls send l i)[k]? = some c) (hh : c.halts = false)
    (hnext : l[k + 1]? = some next) :
    ∃ c', (seqCalls send l i)[k + 1]? = some c' ∧ c'.item = next := by
  induction l generalizing i k with
  | nil => simp at hnext
  | cons a l ih =>
    cases ha : (callOf send a i).halts with
    | true =>
      rw [seqCalls_cons_halt send a l i ha] at hc
      cases k with
      | zero =>
        simp only [List.getElem?_cons_zero, Option.some.injEq] at hc
        rw [← hc, ha] at hh
        cases hh
      | succ k => simp at hc
    | false =>
      rw [seqCalls_cons_go send a l i ha] at hc ⊢
      simp only [List.getElem?_cons_succ] at hnext ⊢
      cases k with
      | zero =>
        cases l with
        | nil => simp at hnext
        | cons b l =>
          simp only [List.getElem?_cons_zero, Option.some.injEq] at hnext
          exact ⟨callOf send b (nextIteration i), seqCalls_head send b l _, hnext⟩
      | succ k =>
        simp only [List.getElem?_cons_succ] at hc
        exact ih _ k hc hnext

/-! ## Facts about the calls of a round -/

theorem eq_of_key_eq {l : List deferredItem} (hn : (keysOf l).Nodup) {x y : deferredItem}
    (hx : x ∈ l) (hy : y ∈ l) (h : x.key = y.key) : x = y :=
  List.inj_on_of_nodup_map hn hx hy h

theorem sendRound_call_item (ctx : DeferredContext) (send : Sender) (reqs : List deferredItem)
    {c : SendCall} (hc : c ∈ (sendRound ctx send reqs).calls) :
    c.item ∈ reqs ∧ hasPayload c.item = true := by
  rw [sendRound_calls] at hc
  exact mem_priorityOrder (seqCalls_item_mem send _ _ c hc)

theorem sendRound_items_nodup (ctx : DeferredContext) (send : Sender)
    (reqs : List deferredItem) (hn : (keysOf reqs).Nodup) :
    ((sendRound ctx send reqs).calls.map (fun c => c.item)).Nodup := by
  rw [sendRound_calls]
  exact List.Nodup.sublist (seqCalls_items_initial send _ _).sublist
    (priorityOrder_nodup _ _ (nodup_of_keys_nodup hn))

theorem sendRound_call_unique (ctx : DeferredContext) (send : Sender)
    (reqs : List deferredItem) (hn : (keysOf reqs).Nodup) {c c' : SendCall}
    (hc : c ∈ (sendRound ctx send reqs).calls) (hc' : c' ∈ (sendRound ctx send reqs).calls)
    (hk : c'.item.key = c.item.key) : c' = c := by
  have hitem : c'.item = c.item :=
    eq_of_key_eq hn (sendRound_call_item ctx send reqs hc').1
      (sendRound_call_item ctx send reqs hc).1 hk
  exact List.inj_on_of_nodup_map (sendRound_items_nodup ctx send reqs hn) hc' hc hitem

theorem filter_eq_singleton_of_unique {α : Type} (p : α → Bool) (l : List α) (c : α)
    (hn : l.Nodup) (hc : c ∈ l) (hp : p c = true) (hu : ∀ x ∈ l, p x = true → x = c) :
    l.filter p = [c] := by
  induction l with
  | nil => simp at hc
  | cons a l ih =>
    rw [List.nodup_cons] at hn
    rcases List.mem_cons.mp hc with rfl | hl
    · have : l.filter p = [] := by
        rw [List.filter_eq_nil_iff]
        intro x hx hpx
        have := hu x (List.mem_cons_of_mem _ hx) hpx
        rw [this] at hx
        exact hn.1 hx
      simp [List.filter_cons, hp, this]
    · have hpa : p a = false := by
        cases hpa : p a with
        | false => rfl
        | true =>
          have := hu a (List.mem_cons_self _ _) hpa
          rw [this] at hn
          exact absurd hl hn.1
      simp only [List.filter_cons, hpa, Bool.false_eq_true, if_false]
      exact ih hn.2 hl (fun x hx hpx => hu x (List.mem_cons_of_mem _ hx) hpx)

/-- A call that stops the round is the last call of the round. -/
theorem sendRound_halting_last (ctx : DeferredContext) (send : Sender)
    (reqs : List deferredItem) {c : SendCall}
    (hc : c ∈ (sendRound ctx send reqs).calls) (hh : c.halts = true) :
    (sendRound ctx send reqs).calls.getLast? = some c := by
  rw [sendRound_calls] at hc ⊢
  exact seqCalls_halts_last send _ _ c hc hh

/-- The item of a call that stops the round is not among the items dealt with. -/
theorem halting_item_not_done (ctx : DeferredContext) (send : Sender)
    (reqs : List deferredItem) (hn : (keysOf reqs).Nodup) {c : SendCall}
    (hc : c ∈ (sendRound ctx send reqs).calls) (hh : c.halts = true) :
    c.item ∉ doneOf (sendRound ctx send reqs).calls := by
  intro hmem
  obtain ⟨c', hc', hh', hitem⟩ := mem_doneOf.mp hmem
  have := sendRound_call_unique ctx send reqs hn hc hc' (by rw [hitem])
  rw [this, hh] at hh'
  cases hh'

/-- What holds for every call of a round that does not stop it, on a batch with
pairwise distinct keys. -/
theorem done_call_facts (ctx : DeferredContext) (send : Sender) (reqs : List deferredItem)
    (hn : (keysOf reqs).Nodup) {c : SendCall}
    (hc : c ∈ (sendRound ctx send reqs).calls) (hh : c.halts = false) :
    (∀ it ∈ (sendRound ctx send reqs).reqs, it.key = c.item.key → it = clearBuf c.item) ∧
      clearBuf c.item ∈ (sendRound ctx send reqs).reqs ∧
      0 < (sendRound ctx send reqs).sent ∧
      c.item.key ∉ keysOf (sendRound ctx send reqs).notSentReqs := by
  have hdone : c.item ∈ doneOf (sendRound ctx send reqs).calls :=
    mem_doneOf.mpr ⟨c, hc, hh, rfl⟩
  have hreq := (sendRound_call_item ctx send reqs hc).1
  have hkey : ∀ x : deferredItem,
      (markDone (doneOf (sendRound ctx send reqs).calls) x).key = x.key := by
    intro x
    simp only [markDone]
    split <;> rfl
  have h1 : ∀ it ∈ (sendRound ctx send reqs).reqs, it.key = c.item.key →
      it = clearBuf c.item := by
    intro it hit hk
    rw [sendRound_reqs ctx send reqs hn] at hit
    obtain ⟨x, hx, rfl⟩ := List.mem_map.mp hit
    rw [hkey] at hk
    have hxc : x = c.item := eq_of_key_eq hn hx hreq hk
    subst hxc
    simp [markDone, hdone]
  have hsent : 0 < (sendRound ctx send reqs).sent := by
    rw [sendRound_sent]
    exact List.length_pos_of_mem hdone
  refine ⟨h1, ?_, hsent, ?_⟩
  · rw [sendRound_reqs ctx send reqs hn]
    refine List.mem_map.mpr ⟨c.item, hreq, ?_⟩
    simp [markDone, hdone]
  · intro hmem
    obtain ⟨it, hit, hk⟩ := mem_keysOf.mp hmem
    rw [sendRound_notSent_def] at hit
    unfold notSentOf at hit
    rw [if_neg (Nat.pos_iff_ne_zero.mp hsent)] at hit
    have hit2 := List.mem_filter.mp hit
    have := h1 it hit2.1 hk
    rw [this] at hit2
    simp [clearBuf] at hit2

theorem sendRound_next_item (ctx : DeferredContext) (send : Sender)
    (reqs : List deferredItem) (k : Nat) (c : SendCall) (next : deferredItem)
    (hc : (sendRound ctx send reqs).calls[k]? = some c) (hh : c.halts = false)
    (hnext : (byFirstAccepting ctx.priorityCheckFunctions reqs)[k + 1]? = some next) :
    ∃ c', (sendRound ctx send reqs).calls[k + 1]? = some c' ∧ c'.item = next := by
  rw [sendRound_calls] at hc ⊢
  rw [← priorityOrder_eq_byFirstAccepting] at hnext
  exact seqCalls_next send _ _ k c next hc hh hnext

/-! ## Classification of the outcome of a call -/

theorem halts_of_failure {c : SendCall} (hign : c.item.ignoreErr = false)
    (hfail : c.err = true ∨ c.rv.Status ≠ SenderStatusNone)
    (hbail : bailsOut c.item c.rv = false) : c.halts = true := by
  unfold SendCall.halts exitAfter
  rw [hbail]
  rcases hfail with h | h
  · simp [h, hign]
  · cases c.err <;> simp [h, hign]

theorem not_halts_of_ignoreErr {c : SendCall} (hign : c.item.ignoreErr = true) :
    c.halts = false := by
  unfold SendCall.halts exitAfter
  split
  · rfl
  · split
    · simp [hign]
    · split
      · simp [hign]
      · rfl

theorem not_halts_of_bailsOut {c : SendCall} (hbail : bailsOut c.item c.rv = true) :
    c.halts = false := by
  unfold SendCall.halts exitAfter
  simp [hbail]

theorem not_halts_of_success {c : SendCall} (herr : c.err = false)
    (hst : c.rv.Status = SenderStatusNone) : c.halts = false := by
  unfold SendCall.halts exitAfter
  split
  · rfl
  · simp [herr, hst]

theorem event_result_of_failure {c : SendCall}
    (hfail : c.err = true ∨ c.rv.Status ≠ SenderStatusNone)
    (hbail : bailsOut c.item c.rv = false) : c.event.result ≠ SenderStatusNone := by
  unfold SendCall.event statusAfter
  simp only [hbail, Bool.false_eq_true, if_false]
  by_cases herr : c.err = true
  · simp only [herr, if_true]
    split
    · simp
    · assumption
  · rcases hfail with h | h
    · exact absurd h herr
    · simp only [herr, Bool.false_eq_true, if_false]
      exact h

theorem bailsOut_of_code {item : deferredItem} {rv : SendRetval} {code : Int}
    (hb : item.bailOnHTTPErr = true) (hresp : rv.HTTPResp = some code)
    (hlo : 400 ≤ code) (hhi : code < 600) : bailsOut item rv = true := by
  simp [bailsOut, hb, hresp, hlo, hhi]

/-- The round ends with `exit` unset when its last call does not stop it. -/
theorem sendRound_exit_of_last (ctx : DeferredContext) (send : Sender)
    (reqs : List deferredItem) {c : SendCall}
    (hlast : (sendRound ctx send reqs).calls.getLast? = some c) (hh : c.halts = false) :
    (sendRound ctx send reqs).exit = false := by
  rw [sendRound_exit]
  cases hany : (sendRound ctx send reqs).calls.any SendCall.halts with
  | false => rfl
  | true =>
    obtain ⟨c', hc', hh'⟩ := List.any_eq_true.mp hany
    have := sendRound_halting_last ctx send reqs hc' hh'
    rw [hlast] at this
    simp only [Option.some.injEq] at this
    rw [this, hh'] at hh
    cases hh

/-- The callback that follows the `k`-th call is the `k`-th invocation of the handler. -/
theorem sendRound_handled_at (ctx : DeferredContext) (send : Sender)
    (reqs : List deferredItem) (hh : ctx.sentHandler = true) (k : Nat) (c : SendCall)
    (hc : (sendRound ctx send reqs).calls[k]? = some c) :
    (sendRound ctx send reqs).handled[k]? = some c.event := by
  rw [sendRound_handled, hh]
  simp only [if_true]
  have hlt : k < (sendRound ctx send reqs).calls.length :=
    (List.getElem?_eq_some_iff.mp hc).1
  rw [List.getElem?_append_left (by simpa using hlt), List.getElem?_map, hc]
  rfl

theorem finishRound_key_absent (ctx : DeferredContext) (send : Sender)
    (reqs : List deferredItem) (key : String)
    (h1 : key ∉ keysOf (sendRound ctx send reqs).notSentReqs)
    (h2 : key ∉ keysOf ctx.deferredItems) :
    key ∉ keysOf (finishRound ctx send reqs).ctx.deferredItems := by
  unfold finishRound
  simp only [mergeBack_items]
  intro hmem
  unfold keysOf at hmem
  rw [List.map_append, List.mem_append] at hmem
  rcases hmem with h | h
  · have := mergeLoop_fst_keys (sendRound ctx send reqs).notSentReqs ctx.deferredItems
    unfold keysOf at this
    rw [this] at h
    exact h1 h
  · exact h2 ((List.Sublist.map _ (mergeLoop_snd_sublist _ _)).subset h)

/-! ## Timer regime -/

theorem SetDeferred_config (ctx : DeferredContext) (key : String) (buf : Option (List Nat))
    (size : Int) (url : String) (bail tracing ign : Bool) (ty : Nat) :
    (SetDeferred ctx key buf size url bail tracing ign ty).Ticker.config =
      if ctx.deferredItems.length = 0 then .expTicker (1 * Minute) (15 * Minute) 3
      else ctx.Ticker.config := by
  unfold SetDeferred
  by_cases h0 : ctx.deferredItems.length = 0
  · simp only [h0, if_true]
    cases hf : findKey key (startTimer ctx).deferredItems <;> simp [startTimer, KickTimer]
  · simp only [h0, if_false]
    cases hf : findKey key ctx.deferredItems <;> simp [KickTimer]

theorem SetDeferred_ne_nil (ctx : DeferredContext) (key : String) (buf : Option (List Nat))
    (size : Int) (url : String) (bail tracing ign : Bool) (ty : Nat) :
    (SetDeferred ctx key buf size url bail tracing ign ty).deferredItems ≠ [] :=
  List.ne_nil_of_mem (mem_SetDeferred_self ctx key buf size url bail tracing ign ty)

theorem RemoveDeferred_config (ctx : DeferredContext) (key : String) :
    (RemoveDeferred ctx key).Ticker.config =
      if (RemoveDeferred ctx key).deferredItems = [] then .rangeTicker longTime1 longTime2
      else ctx.Ticker.config := by
  rw [RemoveDeferred_items]
  unfold RemoveDeferred
  cases h : removeKey key ctx.deferredItems with
  | nil => simp [h, stopTimer]
  | cons a l => simp [h]

theorem mergeBack_config (ctx : DeferredContext) (notSentReqs : List deferredItem) :
    (mergeBack ctx notSentReqs).Ticker.config =
      if (mergeBack ctx notSentReqs).deferredItems = [] then .rangeTicker longTime1 longTime2
      else ctx.Ticker.config := by
  have hq : (mergeQueuesNoLock ctx notSentReqs).Ticker = ctx.Ticker := by
    unfold mergeQueuesNoLock
    split <;> rfl
  rw [mergeBack_items]
  unfold mergeBack
  rw [mergeQueuesNoLock_items]
  cases h : (mergeLoop notSentReqs ctx.deferredItems).1 ++
      (mergeLoop notSentReqs ctx.deferredItems).2 with
  | nil => simp [stopTimer]
  | cons a l => simp [hq]

theorem handleDeferred_of_empty (ctx : DeferredContext) (send : Sender)
    (h : ctx.deferredItems = []) :
    (handleDeferred ctx send).allSent = true ∧ (handleDeferred ctx send).calls = [] ∧
      (handleDeferred ctx send).handled = [] ∧
      (handleDeferred ctx send).ctx.deferredItems = [] ∧
      (handleDeferred ctx send).ctx.iteration = ctx.iteration ∧
      (handleDeferred ctx send).ctx.Ticker = ctx.Ticker := by
  unfold handleDeferred
  simp [takeAll, h]

theorem handleDeferred_config (ctx : DeferredContext) (send : Sender) :
    (handleDeferred ctx send).ctx.Ticker.config =
      if ctx.deferredItems = [] then ctx.Ticker.config
      else if (handleDeferred ctx send).ctx.deferredItems = [] then
        .rangeTicker longTime1 longTime2
      else ctx.Ticker.config := by
  by_cases h : ctx.deferredItems = []
  · rw [if_pos h, (handleDeferred_of_empty ctx send h).2.2.2.2.2]
  · rw [if_neg h]
    have hl : ¬ (takeAll ctx).1.length = 0 := fun h0 => h (List.eq_nil_of_length_eq_zero h0)
    unfold handleDeferred
    simp only [hl, if_false]
    unfold finishRound
    simp only
    rw [mergeBack_config]
    rfl

/-- The regime invariant of runs without concurrency. -/
theorem seqStep_regime (ctx : DeferredContext) (op : SeqOp)
    (h1 : ctx.deferredItems = [] → ctx.Ticker.config = .rangeTicker longTime1 longTime2)
    (h2 : ctx.deferredItems ≠ [] →
      ctx.Ticker.config = .expTicker (1 * Minute) (15 * Minute) 3) :
    ((seqStep ctx op).deferredItems = [] →
        (seqStep ctx op).Ticker.config = .rangeTicker longTime1 longTime2) ∧
      ((seqStep ctx op).deferredItems ≠ [] →
        (seqStep ctx op).Ticker.config = .expTicker (1 * Minute) (15 * Minute) 3) := by
  cases op with
  | setDeferred key buf size url bail tracing ign ty =>
    simp only [seqStep]
    refine ⟨fun h => absurd h (SetDeferred_ne_nil _ _ _ _ _ _ _ _ _), fun _ => ?_⟩
    rw [SetDeferred_config]
    split
    · rfl
    · rename_i hl
      exact h2 (fun h0 => hl (by rw [h0]; rfl))
  | removeDeferred key =>
    simp only [seqStep]
    rw [RemoveDeferred_config]
    refine ⟨fun h => by rw [if_pos h], fun h => ?_⟩
    rw [if_neg h]
    apply h2
    intro h0
    apply h
    rw [RemoveDeferred_items, h0]
    rfl
  | handleDeferred send =>
    simp only [seqStep]
    rw [handleDeferred_config]
    by_cases h0 : ctx.deferredItems = []
    · rw [if_pos h0]
      have := (handleDeferred_of_empty ctx send h0).2.2.2.1
      exact ⟨fun _ => h1 h0, fun h => absurd this h⟩
    · rw [if_neg h0]
      refine ⟨fun h => by rw [if_pos h], fun h => ?_⟩
      rw [if_neg h]
      exact h2 h0

theorem seqRun_regime (ctx : DeferredContext) (ops : List SeqOp)
    (h1 : ctx.deferredItems = [] → ctx.Ticker.config = .rangeTicker longTime1 longTime2)
    (h2 : ctx.deferredItems ≠ [] →
      ctx.Ticker.config = .expTicker (1 * Minute) (15 * Minute) 3) :
    ((seqRun ctx ops).deferredItems = [] →
        (seqRun ctx ops).Ticker.config = .rangeTicker longTime1 longTime2) ∧
      ((seqRun ctx ops).deferredItems ≠ [] →
        (seqRun ctx ops).Ticker.config = .expTicker (1 * Minute) (15 * Minute) 3) := by
  induction ops generalizing ctx with
  | nil => exact ⟨h1, h2⟩
  | cons op ops ih =>
    have := seqStep_regime ctx op h1 h2
    exact ih (seqStep ctx op) this.1 this.2

/-! ## Timer regime with producers running during a round -/

/-- With no round in progress an empty store has the range ticker. -/
theorem step_idle_empty_dormant (s : System) (op : Op)
    (h : s.inflight = none → s.ctx.deferredItems = [] →
      s.ctx.Ticker.config = .rangeTicker longTime1 longTime2) :
    (step s op).inflight = none → (step s op).ctx.deferredItems = [] →
      (step s op).ctx.Ticker.config = .rangeTicker longTime1 longTime2 := by
  cases op with
  | setDeferred key buf size url bail tracing ign ty =>
    intro _ h0
    exact absurd h0 (SetDeferred_ne_nil _ _ _ _ _ _ _ _ _)
  | removeDeferred key =>
    intro _ h0
    simp only [step] at h0 ⊢
    rw [RemoveDeferred_config, if_pos h0]
  | takeAll =>
    cases hi : s.inflight with
    | some b => simp [step, hi]
    | none =>
      simp only [step, hi]
      split
      · rename_i hl
        intro _ _
        exact h hi (List.eq_nil_of_length_eq_zero hl)
      · intro hc
        cases hc
  | mergeBack send =>
    cases hi : s.inflight with
    | none =>
      simp only [step, hi]
      exact fun _ => h hi
    | some reqs =>
      simp only [step, hi]
      intro _ h0
      unfold finishRound at h0 ⊢
      simp only at h0 ⊢
      rw [mergeBack_config, if_pos h0]

theorem run_idle_empty_dormant (s : System) (ops : List Op)
    (h : s.inflight = none → s.ctx.deferredItems = [] →
      s.ctx.Ticker.config = .rangeTicker longTime1 longTime2) :
    (run s ops).inflight = none → (run s ops).ctx.deferredItems = [] →
      (run s ops).ctx.Ticker.config = .rangeTicker longTime1 longTime2 := by
  induction ops generalizing s with
  | nil => exact h
  | cons op ops ih => exact ih (step s op) (step_idle_empty_dormant s op h)

/-! ## The result of a round -/

theorem sendRound_nil (ctx : DeferredContext) (send : Sender) :
    (sendRound ctx send []).notSentReqs = [] := by
  have hk : keysOf (sendRound ctx send []).reqs = keysOf [] := priorityLoop_keys _ _ _ _ _
  have hr : (sendRound ctx send []).reqs = [] := by
    simpa [keysOf] using hk
  rw [sendRound_notSent_def, hr]
  exact List.eq_nil_of_sublist_nil (notSentOf_sublist _ [])

theorem finishRound_allSent (ctx : DeferredContext) (send : Sender) (reqs : List deferredItem) :
    (finishRound ctx send reqs).allSent = true ↔ (sendRound ctx send reqs).notSentReqs = [] := by
  unfold finishRound
  simp [List.length_eq_zero]

theorem handleDeferred_allSent (ctx : DeferredContext) (send : Sender) :
    (handleDeferred ctx send).allSent = true ↔
      (sendRound ctx send ctx.deferredItems).notSentReqs = [] := by
  by_cases h : ctx.deferredItems = []
  · rw [h, sendRound_nil]
    simp [(handleDeferred_of_empty ctx send h).1]
  · rw [(handleDeferred_of_nonempty ctx send h).1]
    simp [List.length_eq_zero]

/-! ## The iteration counter -/

theorem wrapInt_of_range (x : Int) (hlo : -2 ^ 63 ≤ x) (hhi : x < 2 ^ 63) : wrapInt x = x := by
  unfold wrapInt
  have h63 : (2 : Int) ^ 63 = 9223372036854775808 := by norm_num
  have h64 : (2 : Int) ^ 64 = 18446744073709551616 := by norm_num
  rw [h63] at hlo hhi ⊢
  rw [h64]
  omega

theorem nextIteration_iterate (n : Nat) (i : Int) (hlo : -2 ^ 63 ≤ i)
    (hhi : i + n < 2 ^ 63) : nextIteration^[n] i = i + n := by
  induction n generalizing i with
  | zero => simp
  | succ n ih =>
    have h1 : nextIteration i = i + 1 := by
      unfold nextIteration
      apply wrapInt_of_range
      · omega
      · push_cast at hhi
        omega
    rw [Function.iterate_succ_apply, h1, ih (i + 1) (by omega) (by push_cast at hhi ⊢; omega)]
    push_cast
    omega

theorem seqCalls_iteration_at (send : Sender) (l : List deferredItem) (i : Int) (k : Nat)
    (c : SendCall) (hc : (seqCalls send l i)[k]? = some c) :
    c.iteration = nextIteration^[k] i := by
  induction l generalizing i k with
  | nil => simp [seqCalls] at hc
  | cons a l ih =>
    cases ha : (callOf send a i).halts with
    | true =>
      rw [seqCalls_cons_halt send a l i ha] at hc
      cases k with
      | zero =>
        simp only [List.getElem?_cons_zero, Option.some.injEq] at hc
        rw [← hc]
        rfl
      | succ k => simp at hc
    | false =>
      rw [seqCalls_cons_go send a l i ha] at hc
      cases k with
      | zero =>
        simp only [List.getElem?_cons_zero, Option.some.injEq] at hc
        rw [← hc]
        rfl
      | succ k =>
        simp only [List.getElem?_cons_succ] at hc
        rw [Function.iterate_succ_apply]
        exact ih _ k hc

theorem SetDeferred_iteration (ctx : DeferredContext) (key : String) (buf : Option (List Nat))
    (size : Int) (url : String) (bail tracing ign : Bool) (ty : Nat) :
    (SetDeferred ctx key buf size url bail tracing ign ty).iteration = ctx.iteration := by
  unfold SetDeferred
  by_cases h0 : ctx.deferredItems.length = 0
  · simp only [h0, if_true]
    cases hf : findKey key (startTimer ctx).deferredItems <;> simp [startTimer, KickTimer]
  · simp only [h0, if_false]
    cases hf : findKey key ctx.deferredItems <;> simp [KickTimer]

theorem RemoveDeferred_iteration (ctx : DeferredContext) (key : String) :
    (RemoveDeferred ctx key).iteration = ctx.iteration := by
  unfold RemoveDeferred
  simp only
  split <;> rfl

theorem mergeBack_iteration (ctx : DeferredContext) (notSentReqs : List deferredItem) :
    (mergeBack ctx notSentReqs).iteration = ctx.iteration := by
  have hq : (mergeQueuesNoLock ctx notSentReqs).iteration = ctx.iteration := by
    unfold mergeQueuesNoLock
    split <;> rfl
  unfold mergeBack
  split
  · exact hq
  · exact hq

theorem handleDeferred_iteration (ctx : DeferredContext) (send : Sender) :
    (handleDeferred ctx send).ctx.iteration =
      nextIteration^[(handleDeferred ctx send).calls.length] ctx.iteration := by
  by_cases h : ctx.deferredItems = []
  · obtain ⟨_, hc, _, _, hi, _⟩ := handleDeferred_of_empty ctx send h
    rw [hc, hi]
    rfl
  · rw [handleDeferred_calls, ← sendRound_iteration]
    have hl : ¬ (takeAll ctx).1.length = 0 := fun h0 => h (List.eq_nil_of_length_eq_zero h0)
    unfold handleDeferred
    simp only [hl, if_false]
    unfold finishRound
    simp only
    rw [mergeBack_iteration]
    rfl

/-! ## The merge against its reference -/

theorem mergeScan_fst_eq (oldItem : deferredItem) (store : List deferredItem) :
    (mergeScan oldItem store).1 = supersededBy store oldItem := by
  induction store with
  | nil => rfl
  | cons a l ih =>
    by_cases ha : oldItem.key = a.key
    · simp [mergeScan, supersededBy, List.find?_cons, ha]
    · have ha2 : ¬ a.key = oldItem.key := fun h => ha h.symm
      simp only [mergeScan, ha, if_false, ih]
      simp [supersededBy, List.find?_cons, ha2]

theorem supersededBy_removeKey (key : String) (store : List deferredItem) (x : deferredItem)
    (h : x.key ≠ key) : supersededBy (removeKey key store) x = supersededBy store x := by
  induction store with
  | nil => rfl
  | cons a l ih =>
    by_cases ha : a.key = key
    · have hd : decide (a.key = x.key) = false := by
        simp only [decide_eq_false_iff_not]
        exact fun hk => h (hk.symm.trans ha)
      simp only [removeKey, if_pos ha, supersededBy, List.find?_cons, hd]
    · simp only [removeKey, if_neg ha]
      unfold supersededBy at ih ⊢
      cases hd : decide (a.key = x.key) with
      | true => simp only [List.find?_cons, hd]
      | false => simp only [List.find?_cons, hd]; exact ih

theorem mergeLoop_fst_eq (notSentReqs store : List deferredItem)
    (hn : (keysOf notSentReqs).Nodup) :
    (mergeLoop notSentReqs store).1 = notSentReqs.map (supersededBy store) := by
  induction notSentReqs generalizing store with
  | nil => rfl
  | cons a l ih =>
    simp only [keysOf, List.map_cons, List.nodup_cons, List.mem_map, not_exists, not_and] at hn
    simp only [mergeLoop, List.map_cons, mergeScan_fst_eq, mergeScan_snd]
    congr 1
    rw [ih _ hn.2]
    apply List.map_congr_left
    intro x hx
    exact supersededBy_removeKey _ _ _ (hn.1 x hx)

theorem mergeQueuesNoLock_eq_mergeRef (ctx : DeferredContext) (notSentReqs : List deferredItem)
    (hn : (keysOf notSentReqs).Nodup) (hs : (keysOf ctx.deferredItems).Nodup) :
    (mergeQueuesNoLock ctx notSentReqs).deferredItems =
      mergeRef notSentReqs ctx.deferredItems := by
  rw [mergeQueuesNoLock_items, mergeLoop_fst_eq _ _ hn, mergeLoop_snd_eq_filter _ _ hs]
  rfl

theorem merge_keys_iff (notSentReqs store : List deferredItem) (hs : (keysOf store).Nodup)
    (k : String) :
    k ∈ keysOf ((mergeLoop notSentReqs store).1 ++ (mergeLoop notSentReqs store).2) ↔
      k ∈ keysOf notSentReqs ∨ k ∈ keysOf store := by
  have h1 := mergeLoop_fst_keys notSentReqs store
  have h2 := mergeLoop_snd_eq_filter notSentReqs store hs
  unfold keysOf at *
  rw [List.map_append, List.mem_append, h1, h2]
  constructor
  · rintro (h | h)
    · exact Or.inl h
    · obtain ⟨it, hit, rfl⟩ := List.mem_map.mp h
      exact Or.inr (List.mem_map.mpr ⟨it, (List.mem_filter.mp hit).1, rfl⟩)
  · rintro (h | h)
    · exact Or.inl h
    · by_cases hk : k ∈ List.map (fun it => it.key) notSentReqs
      · exact Or.inl hk
      · obtain ⟨it, hit, rfl⟩ := List.mem_map.mp h
        exact Or.inr (List.mem_map.mpr ⟨it, List.mem_filter.mpr ⟨hit, by simpa using hk⟩, rfl⟩)

theorem merge_length (notSentReqs store : List deferredItem) (hs : (keysOf store).Nodup) :
    ((mergeLoop notSentReqs store).1 ++ (mergeLoop notSentReqs store).2).length =
      notSentReqs.length + store.length -
        ((keysOf store).filter (fun k => decide (k ∈ keysOf notSentReqs))).length := by
  rw [List.length_append, mergeLoop_fst_length, mergeLoop_snd_eq_filter _ _ hs]
  have h1 := List.length_eq_length_filter_add
    (l := store) (fun it => decide (it.key ∈ keysOf notSentReqs))
  have h2 : ((keysOf store).filter (fun k => decide (k ∈ keysOf notSentReqs))).length =
      (store.filter (fun it => decide (it.key ∈ keysOf notSentReqs))).length := by
    unfold keysOf
    rw [List.filter_map, List.length_map]
    rfl
  have h3 : (store.filter (fun it => decide (it.key ∉ keysOf notSentReqs))).length =
      (store.filter (fun it => !decide (it.key ∈ keysOf notSentReqs))).length := by
    congr 1
    apply List.filter_congr
    intro x _
    simp
  rw [h2, h3]
  omega

/-! ## Accounting after the loops -/

theorem innerLoop_sent_le (hasHandler : Bool) (send : Sender) (f : TypePriorityCheckFunction)
    (l : List deferredItem) (st : RoundState) (hst : st.exit = false) :
    st.sent ≤ (innerLoop hasHandler send f l st).2.sent := by
  rw [innerLoop_state hasHandler send f l st hst]
  simp [applyCalls]

theorem priorityLoop_sent_le (hasHandler : Bool) (send : Sender)
    (fs : List TypePriorityCheckFunction) (reqs : List deferredItem) (st : RoundState)
    (hst : st.exit = false) :
    st.sent ≤ (priorityLoop hasHandler send fs reqs st).2.sent := by
  rw [priorityLoop_state hasHandler send fs reqs st hst]
  simp [applyCalls]

/-- When the inner loop counts nothing as sent it leaves the batch as it is. -/
theorem innerLoop_list_of_sent_eq (hasHandler : Bool) (send : Sender)
    (f : TypePriorityCheckFunction) (l : List deferredItem) (st : RoundState)
    (hst : st.exit = false)
    (hsent : (innerLoop hasHandler send f l st).2.sent = st.sent) :
    (innerLoop hasHandler send f l st).1 = l := by
  induction l generalizing st with
  | nil => simp [innerLoop]
  | cons a l ih =>
    cases he : eligible f a with
    | false =>
      rw [innerLoop_cons_skip hasHandler send f a l st he] at hsent ⊢
      simp only at hsent ⊢
      rw [ih st hst hsent]
    | true =>
      cases hh : (callOf send a st.iteration).halts with
      | true => rw [innerLoop_cons_halt hasHandler send f a l st he hst hh]
      | false =>
        rw [innerLoop_cons_go hasHandler send f a l st he hst hh] at hsent
        simp only at hsent
        have := innerLoop_sent_le hasHandler send f l
          { exit := false, sent := st.sent + 1, iteration := nextIteration st.iteration,
            calls := st.calls ++ [callOf send a st.iteration],
            handled := if hasHandler then st.handled ++ [(callOf send a st.iteration).event]
              else st.handled } rfl
        simp only at this
        omega

/-- When the loops count nothing as sent they leave the batch as it is. -/
theorem priorityLoop_list_of_sent_eq (hasHandler : Bool) (send : Sender)
    (fs : List TypePriorityCheckFunction) (reqs : List deferredItem) (st : RoundState)
    (hst : st.exit = false)
    (hsent : (priorityLoop hasHandler send fs reqs st).2.sent = st.sent) :
    (priorityLoop hasHandler send fs reqs st).1 = reqs := by
  induction fs generalizing reqs st with
  | nil => rfl
  | cons f fs ih =>
    have hle := innerLoop_sent_le hasHandler send f reqs st hst
    rw [priorityLoop] at hsent ⊢
    cases hex : (innerLoop hasHandler send f reqs st).2.exit with
    | true =>
      simp only [hex, if_true] at hsent ⊢
      exact innerLoop_list_of_sent_eq hasHandler send f reqs st hst hsent
    | false =>
      simp only [hex, Bool.false_eq_true, if_false] at hsent ⊢
      have hle2 := priorityLoop_sent_le hasHandler send fs
        (innerLoop hasHandler send f reqs st).1 (innerLoop hasHandler send f reqs st).2 hex
      have h1 : (innerLoop hasHandler send f reqs st).2.sent = st.sent := by omega
      have h2 := innerLoop_list_of_sent_eq hasHandler send f reqs st hst h1
      rw [ih _ _ hex (by rw [hsent, h1]), h2]

theorem sendRound_notSent_of_sent_zero (ctx : DeferredContext) (send : Sender)
    (reqs : List deferredItem) (hsent : (sendRound ctx send reqs).sent = 0) :
    (sendRound ctx send reqs).notSentReqs = reqs := by
  rw [sendRound_notSent_def, hsent]
  simp only [notSentOf, if_true]
  exact priorityLoop_list_of_sent_eq _ _ _ _ _ rfl hsent

theorem priorityOrder_length_le (fs : List TypePriorityCheckFunction)
    (l : List deferredItem) : (priorityOrder fs l).length ≤ l.length := by
  induction fs generalizing l with
  | nil => simp [priorityOrder]
  | cons f fs ih =>
    simp only [priorityOrder, List.length_append]
    have h1 := ih (l.filter (fun it => !f it.itemType))
    have h2 := List.length_eq_length_filter_add (l := l) (fun it => f it.itemType)
    have h3 : (l.filter (eligible f)).length ≤ (l.filter (fun it => f it.itemType)).length := by
      apply List.Sublist.length_le
      apply List.monotone_filter_right
      intro a ha
      simp only [eligible, Bool.and_eq_true] at ha
      exact ha.1
    omega

theorem sendRound_calls_length_le (ctx : DeferredContext) (send : Sender)
    (reqs : List deferredItem) : (sendRound ctx send reqs).calls.length ≤ reqs.length := by
  have h1 := (seqCalls_items_initial send
    (priorityOrder ctx.priorityCheckFunctions reqs) ctx.iteration).length_le
  rw [List.length_map, ← sendRound_calls] at h1
  exact h1.trans (priorityOrder_length_le _ _)

theorem sendRound_items_nodup_of_nodup (ctx : DeferredContext) (send : Sender)
    (reqs : List deferredItem) (hn : reqs.Nodup) :
    ((sendRound ctx send reqs).calls.map (fun c => c.item)).Nodup := by
  rw [sendRound_calls]
  exact List.Nodup.sublist (seqCalls_items_initial send _ _).sublist
    (priorityOrder_nodup _ _ hn)

theorem event_result_of_error {c : SendCall} (herr : c.err = true)
    (hbail : bailsOut c.item c.rv = false) :
    c.event.result =
      if c.rv.Status = SenderStatusNone then SenderStatusFailed else c.rv.Status := by
  simp [SendCall.event, statusAfter, hbail, herr]

/-! ## The priority functions of a created context -/

theorem SetDeferred_priorityCheckFunctions (ctx : DeferredContext) (key : String)
    (buf : Option (List Nat)) (size : Int) (url : String) (bail tracing ign : Bool)
    (ty : Nat) :
    (SetDeferred ctx key buf size url bail tracing ign ty).priorityCheckFunctions =
      ctx.priorityCheckFunctions := by
  unfold SetDeferred
  by_cases h0 : ctx.deferredItems.length = 0
  · simp only [h0, if_true]
    cases hf : findKey key (startTimer ctx).deferredItems <;> simp [startTimer, KickTimer]
  · simp only [h0, if_false]
    cases hf : findKey key ctx.deferredItems <;> simp [KickTimer]

theorem RemoveDeferred_priorityCheckFunctions (ctx : DeferredContext) (key : String) :
    (RemoveDeferred ctx key).priorityCheckFunctions = ctx.priorityCheckFunctions := by
  unfold RemoveDeferred
  simp only
  split <;> rfl

theorem mergeBack_priorityCheckFunctions (ctx : DeferredContext)
    (notSentReqs : List deferredItem) :
    (mergeBack ctx notSentReqs).priorityCheckFunctions = ctx.priorityCheckFunctions := by
  have hq : (mergeQueuesNoLock ctx notSentReqs).priorityCheckFunctions =
      ctx.priorityCheckFunctions := by
    unfold mergeQueuesNoLock
    split <;> rfl
  unfold mergeBack
  split
  · exact hq
  · exact hq

theorem step_priorityCheckFunctions (s : System) (op : Op) :
    (step s op).ctx.priorityCheckFunctions = s.ctx.priorityCheckFunctions := by
  cases op with
  | setDeferred key buf size url bail tracing ign ty =>
    exact SetDeferred_priorityCheckFunctions _ _ _ _ _ _ _ _ _
  | removeDeferred key => exact RemoveDeferred_priorityCheckFunctions _ _
  | takeAll =>
    cases hi : s.inflight with
    | some b => simp only [step, hi]
    | none =>
      simp only [step, hi]
      split <;> rfl
  | mergeBack send =>
    cases hi : s.inflight with
    | none => simp only [step, hi]
    | some reqs =>
      simp only [step, hi]
      unfold finishRound
      simp only
      rw [mergeBack_priorityCheckFunctions]

/-- No step changes the priority functions set by `CreateDeferredCtx`. -/
theorem run_priorityCheckFunctions (s : System) (ops : List Op) :
    (run s ops).ctx.priorityCheckFunctions = s.ctx.priorityCheckFunctions := by
  induction ops generalizing s with
  | nil => rfl
  | cons op ops ih => exact (ih (step s op)).trans (step_priorityCheckFunctions s op)

/-- The order of the sends of a round under priority functions that end with the
accept-all function. -/
theorem sendRound_order (ctx : DeferredContext) (user : List TypePriorityCheckFunction)
    (hfs : ctx.priorityCheckFunctions = user ++ [fun _ => true])
    (send : Sender) (reqs : List deferredItem) :
    (byFirstAccepting ctx.priorityCheckFunctions reqs).Perm (reqs.filter hasPayload) ∧
      ((sendRound ctx send reqs).exit = false →
        (sendRound ctx send reqs).calls.map (fun c => c.item) =
          byFirstAccepting ctx.priorityCheckFunctions reqs) ∧
      ((sendRound ctx send reqs).calls.map (fun c => c.item)) <+:
        byFirstAccepting ctx.priorityCheckFunctions reqs := by
  rw [← priorityOrder_eq_byFirstAccepting]
  refine ⟨?_, ?_, ?_⟩
  · rw [hfs]
    exact priorityOrder_acceptAll_perm user reqs
  · intro hexit
    rw [sendRound_exit] at hexit
    rw [sendRound_calls] at hexit ⊢
    exact seqCalls_no_halt send _ _ hexit
  · rw [sendRound_calls]
    exact seqCalls_items_initial send _ _

/-! ## Claims -/

/-- C2: `SetDeferred` is an upsert by key. If some item has the key, the first
position holding the key afterwards holds an item with exactly the supplied
fields, the store keeps its length and every other position is unchanged; if
no item has the key, the new store is the old one with the new item appended.
In both cases the item found under the key afterwards is the one of this call. -/
theorem SetDeferred_upsert (ctx : DeferredContext) (key : String) (buf : Option (List Nat))
    (size : Int) (url : String) (bail tracing ign : Bool) (ty : Nat) :
    (∀ (ind : Nat) (it : deferredItem), ctx.deferredItems[ind]? = some it → it.key = key →
      (∀ j, j < ind → ∀ jt : deferredItem, ctx.deferredItems[j]? = some jt → jt.key ≠ key) →
        (SetDeferred ctx key buf size url bail tracing ign ty).deferredItems.length =
            ctx.deferredItems.length ∧
          (SetDeferred ctx key buf size url bail tracing ign ty).deferredItems[ind]? =
            some (⟨ty, key, buf, size, url, bail, tracing, ign⟩ : deferredItem) ∧
          ∀ j, j ≠ ind →
            (SetDeferred ctx key buf size url bail tracing ign ty).deferredItems[j]? =
              ctx.deferredItems[j]?) ∧
    ((∀ it ∈ ctx.deferredItems, it.key ≠ key) →
        (SetDeferred ctx key buf size url bail tracing ign ty).deferredItems =
          ctx.deferredItems ++ [(⟨ty, key, buf, size, url, bail, tracing, ign⟩ : deferredItem)]) ∧
    (SetDeferred ctx key buf size url bail tracing ign ty).deferredItems.find?
        (fun it => decide (it.key = key)) =
      some (⟨ty, key, buf, size, url, bail, tracing, ign⟩ : deferredItem) := by
  refine ⟨?_, ?_, ?_⟩
  · intro ind it hit hk hfirst
    have hf := findKey_of_first hit hk hfirst
    have hlt : ind < ctx.deferredItems.length := (List.getElem?_eq_some_iff.mp hit).1
    rw [SetDeferred_items, hf]
    refine ⟨by simp, by simp [List.getElem?_set, hlt], ?_⟩
    intro j hj
    simp [List.getElem?_set, Ne.symm hj]
  · intro hno
    rw [SetDeferred_items, findKey_eq_none.mpr hno]
  · rw [SetDeferred_items]
    exact upsert_find key _ rfl _

/-- C2, at a two-item store whose second item has the key: lookup gives the new item. -/
theorem SetDeferred_upsert_witness :
    (SetDeferred
        { deferredItems := [⟨0, "a", some [1], 1, "u", false, false, false⟩,
                            ⟨0, "b", some [2], 1, "u", false, false, false⟩],
          Ticker := ⟨.rangeTicker longTime1 longTime2, 0⟩,
          priorityCheckFunctions := [fun _ => true], sentHandler := true, iteration := 0 }
        "b" (some [7]) 1 "v" true false true 5).deferredItems.find?
        (fun it => decide (it.key = "b")) =
      some ⟨5, "b", some [7], 1, "v", true, false, true⟩ :=
  (SetDeferred_upsert _ "b" (some [7]) 1 "v" true false true 5).2.2

/-- C3: `RemoveDeferred` removes by key and is a no-op on the store when the key
is absent: on a store with pairwise distinct keys the new store is the old one
with the item of that key filtered out (the others in their original order),
no item with the key remains, and without such an item the store is unchanged. -/
theorem RemoveDeferred_removes (ctx : DeferredContext) (key : String)
    (huniq : (keysOf ctx.deferredItems).Nodup) :
    (RemoveDeferred ctx key).deferredItems =
        ctx.deferredItems.filter (fun it => decide (it.key ≠ key)) ∧
      key ∉ keysOf (RemoveDeferred ctx key).deferredItems ∧
      (key ∉ keysOf ctx.deferredItems →
        (RemoveDeferred ctx key).deferredItems = ctx.deferredItems) := by
  rw [RemoveDeferred_items, removeKey_eq_filter huniq]
  refine ⟨rfl, ?_, ?_⟩
  · simp [mem_keysOf, List.mem_filter]
  · intro hno
    apply filter_key_ne_of_not_mem
    intro it hit hk
    exact hno (mem_keysOf.mpr ⟨it, hit, hk⟩)

/-- C3, on a two-item store from which the first key is removed. -/
theorem RemoveDeferred_removes_witness :
    (keysOf [(⟨0, "a", some [1], 1, "u", false, false, false⟩ : deferredItem),
             ⟨0, "b", some [2], 1, "u", false, false, false⟩]).Nodup ∧
    (RemoveDeferred
        { deferredItems := [⟨0, "a", some [1], 1, "u", false, false, false⟩,
                            ⟨0, "b", some [2], 1, "u", false, false, false⟩],
          Ticker := ⟨.expTicker (1 * Minute) (15 * Minute) 3, 0⟩,
          priorityCheckFunctions := [fun _ => true], sentHandler := true, iteration := 0 }
        "a").deferredItems =
      [⟨0, "b", some [2], 1, "u", false, false, false⟩] :=
  ⟨by decide,
   (RemoveDeferred_removes _ "a" (by decide)).1.trans (by decide)⟩

/-- C1: at most one item per key. From a freshly created context, after every
sequence of `SetDeferred`, `RemoveDeferred`, take-all and merge-back steps
(producer steps allowed while a round is in progress, any send outcomes), the
store holds no two items with the same key, and neither does the batch of the
round in progress. -/
theorem at_most_one_per_key (sentHandler : Bool)
    (priorityCheckFunctions : List TypePriorityCheckFunction) (ops : List Op) :
    (keysOf (run (initSystem sentHandler priorityCheckFunctions) ops).ctx.deferredItems).Nodup ∧
      ∀ b, (run (initSystem sentHandler priorityCheckFunctions) ops).inflight = some b →
        (keysOf b).Nodup :=
  run_keys_nodup _ ops (by simp [initSystem, CreateDeferredCtx, keysOf])
    (by simp [initSystem])

/-- C4: no loss during send. Let a round be in progress on a batch holding key `K`
(in a state reached from a fresh context). If `SetDeferred` is then called
for `K`, followed by any producer calls on other keys, then for every outcome
of the sends of the round the store after the merge-back holds exactly one
item with key `K`, and it is the item of that `SetDeferred` call. -/
theorem no_loss_during_send (sentHandler : Bool)
    (priorityCheckFunctions : List TypePriorityCheckFunction) (ops : List Op)
    (reqs : List deferredItem) (K : String)
    (hround : (run (initSystem sentHandler priorityCheckFunctions) ops).inflight = some reqs)
    (hK : K ∈ keysOf reqs)
    (buf : Option (List Nat)) (size : Int) (url : String) (bail tracing ign : Bool) (ty : Nat)
    (later : List Op) (hlater : ∀ op ∈ later, op.isProducer = true ∧ op.key? ≠ some K)
    (send : Sender) :
    (step (run (step (run (initSystem sentHandler priorityCheckFunctions) ops)
        (.setDeferred K buf size url bail tracing ign ty)) later)
      (.mergeBack send)).ctx.deferredItems.filter (fun it => decide (it.key = K)) =
      [⟨ty, K, buf, size, url, bail, tracing, ign⟩] := by
  have _ := hK
  have hinv := run_keys_nodup (initSystem sentHandler priorityCheckFunctions)
    (ops ++ [.setDeferred K buf size url bail tracing ign ty] ++ later ++ [.mergeBack send])
    (by simp [initSystem, CreateDeferredCtx, keysOf]) (by simp [initSystem])
  have hrun : ∀ (s : System) (a b : List Op), run s (a ++ b) = run (run s a) b := by
    intro s a
    induction a generalizing s with
    | nil => intro b; rfl
    | cons o a ih => intro b; exact ih (step s o) b
  rw [hrun, hrun, hrun] at hinv
  simp only [run] at hinv
  have hkeep := run_producers_keeps
    (step (run (initSystem sentHandler priorityCheckFunctions) ops)
      (.setDeferred K buf size url bail tracing ign ty)) later K hlater
    (x := ⟨ty, K, buf, size, url, bail, tracing, ign⟩)
    (mem_SetDeferred_self _ _ _ _ _ _ _ _ _) rfl
  have hin : (run (step (run (initSystem sentHandler priorityCheckFunctions) ops)
      (.setDeferred K buf size url bail tracing ign ty)) later).inflight = some reqs := by
    rw [hkeep.2]
    exact hround
  have hmem : (⟨ty, K, buf, size, url, bail, tracing, ign⟩ : deferredItem) ∈
      (step (run (step (run (initSystem sentHandler priorityCheckFunctions) ops)
        (.setDeferred K buf size url bail tracing ign ty)) later)
        (.mergeBack send)).ctx.deferredItems := by
    rw [step_mergeBack_of_inflight send hin]
    exact finishRound_keeps _ _ _ hkeep.1
  exact filter_key_eq_singleton hinv.1 hmem

/-- C4, on a run where key `k` is queued, a round takes it, `k` is set again and
another key is removed while the send of the round fails. -/
theorem no_loss_during_send_witness :
    (step (run (step (run (initSystem true [])
          [.setDeferred "k" (some [1]) 1 "u" false false false 0, .takeAll])
        (.setDeferred "k" (some [2]) 1 "u" false false false 0)) [.removeDeferred "j"])
      (.mergeBack (fun _ => (⟨SenderStatusFailed, none, none⟩, true)))).ctx.deferredItems.filter
        (fun it => decide (it.key = "k")) =
      [⟨0, "k", some [2], 1, "u", false, false, false⟩] :=
  no_loss_during_send true []
    [.setDeferred "k" (some [1]) 1 "u" false false false 0, .takeAll]
    [⟨0, "k", some [1], 1, "u", false, false, false⟩] "k" (by rfl) (by decide)
    (some [2]) 1 "u" false false false 0 [.removeDeferred "j"]
    (by simp [Op.isProducer, Op.key?])
    (fun _ => (⟨SenderStatusFailed, none, none⟩, true))

/-- C5: halt. In a round of `handleDeferred` on a store with pairwise distinct
keys, let a call be made for an item with `ignoreErr` unset that returns an
error or a status other than `SenderStatusNone`, the bail-on-HTTP-error case
not applying. Then this call is the last call of the round, `handleDeferred`
returns false, and the items with a buffer that either are the failed item or
were not passed to the transmission primitive are in the store after the
round, unchanged and in their original order. -/
theorem halt_stops_round (ctx : DeferredContext) (send : Sender)
    (huniq : (keysOf ctx.deferredItems).Nodup) (c : SendCall)
    (hc : c ∈ (handleDeferred ctx send).calls)
    (hign : c.item.ignoreErr = false)
    (hfail : c.err = true ∨ c.rv.Status ≠ SenderStatusNone)
    (hbail : bailsOut c.item c.rv = false) :
    (handleDeferred ctx send).calls.getLast? = some c ∧
      (handleDeferred ctx send).allSent = false ∧
      (ctx.deferredItems.filter (fun it =>
          it.buf.isSome &&
            (decide (it = c.item) ||
              !decide (it ∈ (handleDeferred ctx send).calls.map (fun c' => c'.item))))).Sublist
        (handleDeferred ctx send).ctx.deferredItems := by
  rw [handleDeferred_calls] at hc ⊢
  have hh := halts_of_failure hign hfail hbail
  have hitem := sendRound_call_item ctx send ctx.deferredItems hc
  have hne : ctx.deferredItems ≠ [] := List.ne_nil_of_mem hitem.1
  obtain ⟨hall, hstore, _⟩ := handleDeferred_of_nonempty ctx send hne
  have hnd := halting_item_not_done ctx send ctx.deferredItems huniq hc hh
  have hsub : (ctx.deferredItems.filter (fun it =>
      it.buf.isSome &&
        (decide (it = c.item) ||
          !decide (it ∈ (sendRound ctx send ctx.deferredItems).calls.map
            (fun c' => c'.item))))).Sublist
      (sendRound ctx send ctx.deferredItems).notSentReqs := by
    rw [sendRound_notSent ctx send ctx.deferredItems huniq]
    split
    · exact List.filter_sublist _
    · apply List.monotone_filter_right
      intro a ha
      simp only [Bool.and_eq_true, Bool.or_eq_true, decide_eq_true_eq, Bool.not_eq_true',
        decide_eq_false_iff_not] at ha
      simp only [Bool.and_eq_true, decide_eq_true_eq]
      refine ⟨ha.1, ?_⟩
      rcases ha.2 with h | h
      · rw [h]; exact hnd
      · intro hmem
        obtain ⟨c', hc', _, hi⟩ := mem_doneOf.mp hmem
        exact h (List.mem_map.mpr ⟨c', hc', hi⟩)
  refine ⟨sendRound_halting_last ctx send ctx.deferredItems hc hh, ?_, ?_⟩
  · rw [hall]
    have hbuf : c.item.buf.isSome = true := by
      obtain ⟨b, hb, _⟩ := hasPayload_iff.mp hitem.2
      simp [hb]
    have hmem : c.item ∈ (sendRound ctx send ctx.deferredItems).notSentReqs := by
      apply hsub.subset
      apply List.mem_filter.mpr
      exact ⟨hitem.1, by simp [hbuf]⟩
    have : (sendRound ctx send ctx.deferredItems).notSentReqs.length ≠ 0 :=
      Nat.pos_iff_ne_zero.mp (List.length_pos_of_mem hmem)
    simp [this]
  · rw [hstore]
    exact hsub

/-- C6: `ignoreErr` bypass. In a round of `handleDeferred` on a store with pairwise
distinct keys, let a call be made for an item with `ignoreErr` set that
returns an error or a status other than `SenderStatusNone`, the
bail-on-HTTP-error case not applying. Then the call does not stop the round
(if it is the last call the round ends with `exit` unset, and the item that
follows in the order of the sends is sent next), the buffer of the item is
set to nil in the batch, the item is among those counted as sent, no item
with its key is in the not-sent set or in the store after the round, and the
callback made for the call carries a status other than `SenderStatusNone`. -/
theorem ignoreErr_bypass (ctx : DeferredContext) (send : Sender)
    (huniq : (keysOf ctx.deferredItems).Nodup) (c : SendCall)
    (hc : c ∈ (handleDeferred ctx send).calls)
    (hign : c.item.ignoreErr = true)
    (hfail : c.err = true ∨ c.rv.Status ≠ SenderStatusNone)
    (hbail : bailsOut c.item c.rv = false) :
    c.halts = false ∧
      ((handleDeferred ctx send).calls.getLast? = some c →
        (sendRound ctx send ctx.deferredItems).exit = false) ∧
      (∀ (k : Nat) (next : deferredItem), (handleDeferred ctx send).calls[k]? = some c →
        (byFirstAccepting ctx.priorityCheckFunctions ctx.deferredItems)[k + 1]? = some next →
        ∃ c', (handleDeferred ctx send).calls[k + 1]? = some c' ∧ c'.item = next) ∧
      (∀ it ∈ (sendRound ctx send ctx.deferredItems).reqs,
        it.key = c.item.key → it = clearBuf c.item) ∧
      clearBuf c.item ∈ (sendRound ctx send ctx.deferredItems).reqs ∧
      (c.item ∈ doneOf (handleDeferred ctx send).calls ∧
        (sendRound ctx send ctx.deferredItems).sent =
          (doneOf (handleDeferred ctx send).calls).length) ∧
      c.item.key ∉ keysOf (sendRound ctx send ctx.deferredItems).notSentReqs ∧
      c.item.key ∉ keysOf (handleDeferred ctx send).ctx.deferredItems ∧
      c.event.result ≠ SenderStatusNone ∧
      (ctx.sentHandler = true → ∀ k : Nat, (handleDeferred ctx send).calls[k]? = some c →
        (handleDeferred ctx send).handled[k]? = some c.event) := by
  rw [handleDeferred_calls] at hc ⊢
  have hh := not_halts_of_ignoreErr hign
  have hitem := sendRound_call_item ctx send ctx.deferredItems hc
  have hne : ctx.deferredItems ≠ [] := List.ne_nil_of_mem hitem.1
  obtain ⟨_, hstore, hhandled⟩ := handleDeferred_of_nonempty ctx send hne
  obtain ⟨h1, h2, _, h4⟩ := done_call_facts ctx send ctx.deferredItems huniq hc hh
  refine ⟨hh, fun hlast => sendRound_exit_of_last ctx send _ hlast hh,
    fun k next hk hn => sendRound_next_item ctx send _ k c next hk hh hn, h1, h2,
    ⟨mem_doneOf.mpr ⟨c, hc, hh, rfl⟩, sendRound_sent ctx send _⟩, h4, ?_,
    event_result_of_failure hfail hbail, ?_⟩
  · rw [hstore]; exact h4
  · intro hhand k hk
    rw [hhandled]
    exact sendRound_handled_at ctx send _ hhand k c hk

/-- C7: terminal accept. In a round of `handleDeferred` on a store with pairwise
distinct keys, let a call be made for an item with `bailOnHTTPErr` set whose
send returns an HTTP response with a status code from 400 to 599, whatever
error and status come with it. Then the call does not stop the round (if it
is the last call the round ends with `exit` unset, and the item that follows
in the order of the sends is sent next), the buffer of the item is set to nil
in the batch, the item is among those counted as sent, and no item with its
key is in the not-sent set or in the store after the round. -/
theorem terminal_accept (ctx : DeferredContext) (send : Sender)
    (huniq : (keysOf ctx.deferredItems).Nodup) (c : SendCall)
    (hc : c ∈ (handleDeferred ctx send).calls)
    (hb : c.item.bailOnHTTPErr = true) (code : Int)
    (hresp : c.rv.HTTPResp = some code) (hlo : 400 ≤ code) (hhi : code < 600) :
    c.halts = false ∧
      ((handleDeferred ctx send).calls.getLast? = some c →
        (sendRound ctx send ctx.deferredItems).exit = false) ∧
      (∀ (k : Nat) (next : deferredItem), (handleDeferred ctx send).calls[k]? = some c →
        (byFirstAccepting ctx.priorityCheckFunctions ctx.deferredItems)[k + 1]? = some next →
        ∃ c', (handleDeferred ctx send).calls[k + 1]? = some c' ∧ c'.item = next) ∧
      (∀ it ∈ (sendRound ctx send ctx.deferredItems).reqs,
        it.key = c.item.key → it = clearBuf c.item) ∧
      clearBuf c.item ∈ (sendRound ctx send ctx.deferredItems).reqs ∧
      (c.item ∈ doneOf (handleDeferred ctx send).calls ∧
        (sendRound ctx send ctx.deferredItems).sent =
          (doneOf (handleDeferred ctx send).calls).length) ∧
      c.item.key ∉ keysOf (sendRound ctx send ctx.deferredItems).notSentReqs ∧
      c.item.key ∉ keysOf (handleDeferred ctx send).ctx.deferredItems := by
  rw [handleDeferred_calls] at hc ⊢
  have hh := not_halts_of_bailsOut (bailsOut_of_code hb hresp hlo hhi)
  have hitem := sendRound_call_item ctx send ctx.deferredItems hc
  have hne : ctx.deferredItems ≠ [] := List.ne_nil_of_mem hitem.1
  obtain ⟨_, hstore, _⟩ := handleDeferred_of_nonempty ctx send hne
  obtain ⟨h1, h2, _, h4⟩ := done_call_facts ctx send ctx.deferredItems huniq hc hh
  refine ⟨hh, fun hlast => sendRound_exit_of_last ctx send _ hlast hh,
    fun k next hk hn => sendRound_next_item ctx send _ k c next hk hh hn, h1, h2,
    ⟨mem_doneOf.mpr ⟨c, hc, hh, rfl⟩, sendRound_sent ctx send _⟩, h4, ?_⟩
  rw [hstore]; exact h4

/-- C5, on the sample context: `a1` fails first, `a2` and `b1` are not sent and the
store after the round is the whole batch. -/
theorem halt_stops_round_witness :
    (handleDeferred (sampleCtx false false) sampleSendErr).calls.getLast? =
        some ⟨sampleA1 false false, 7, ⟨SenderStatusNone, none, none⟩, true⟩ ∧
      (handleDeferred (sampleCtx false false) sampleSendErr).allSent = false ∧
      [sampleB1, sampleA1 false false, sampleA2].Sublist
        (handleDeferred (sampleCtx false false) sampleSendErr).ctx.deferredItems :=
  halt_stops_round (sampleCtx false false) sampleSendErr (by decide)
    ⟨sampleA1 false false, 7, ⟨SenderStatusNone, none, none⟩, true⟩
    (by decide) rfl (Or.inl rfl) rfl

/-- C6, on the sample context with `ignoreErr` set for `a1`: the failure of `a1` does
not stop the round and `a1` leaves the queue. -/
theorem ignoreErr_bypass_witness :
    (⟨sampleA1 false true, 7, ⟨SenderStatusNone, none, none⟩, true⟩ : SendCall).halts = false ∧
      "a1" ∉ keysOf (handleDeferred (sampleCtx false true) sampleSendErr).ctx.deferredItems ∧
      (⟨sampleA1 false true, 7, ⟨SenderStatusNone, none, none⟩, true⟩ : SendCall).event.result ≠
        SenderStatusNone :=
  have h := ignoreErr_bypass (sampleCtx false true) sampleSendErr (by decide)
    ⟨sampleA1 false true, 7, ⟨SenderStatusNone, none, none⟩, true⟩
    (by decide) rfl (Or.inl rfl) rfl
  ⟨h.1, h.2.2.2.2.2.2.2.1, h.2.2.2.2.2.2.2.2.1⟩

/-- C7, on the sample context with `bailOnHTTPErr` set for `a1`, whose send gets HTTP
404 together with an error: the round goes on and `a1` leaves the queue. -/
theorem terminal_accept_witness :
    (⟨sampleA1 true false, 7, ⟨.other 5, some 404, none⟩, true⟩ : SendCall).halts = false ∧
      "a1" ∉ keysOf (handleDeferred (sampleCtx true false) sampleSend404).ctx.deferredItems :=
  have h := terminal_accept (sampleCtx true false) sampleSend404 (by decide)
    ⟨sampleA1 true false, 7, ⟨.other 5, some 404, none⟩, true⟩
    (by decide) rfl 404 rfl (by decide) (by decide)
  ⟨h.1, h.2.2.2.2.2.2.2⟩

/-- C8: priority, then store order. In every context reached from `CreateDeferredCtx`
by the atomic steps, the priority functions are the caller's followed by the
accept-all function that `CreateDeferredCtx` appends; for every batch the order
by first accepting function then lists exactly the items of the batch with a
non-empty payload; in a round that does not halt the items passed to the
transmission primitive are, in order, the items of that list, and in every
round they are a prefix of it. -/
theorem priority_then_store_order (sentHandler : Bool)
    (user : List TypePriorityCheckFunction) (ops : List Op)
    (send : Sender) (reqs : List deferredItem) :
    (run (initSystem sentHandler user) ops).ctx.priorityCheckFunctions =
        user ++ [fun _ => true] ∧
      (byFirstAccepting (run (initSystem sentHandler user) ops).ctx.priorityCheckFunctions
          reqs).Perm (reqs.filter hasPayload) ∧
      ((sendRound (run (initSystem sentHandler user) ops).ctx send reqs).exit = false →
        (sendRound (run (initSystem sentHandler user) ops).ctx send reqs).calls.map
            (fun c => c.item) =
          byFirstAccepting (run (initSystem sentHandler user) ops).ctx.priorityCheckFunctions
            reqs) ∧
      ((sendRound (run (initSystem sentHandler user) ops).ctx send reqs).calls.map
          (fun c => c.item)) <+:
        byFirstAccepting (run (initSystem sentHandler user) ops).ctx.priorityCheckFunctions
          reqs := by
  have hfs := run_priorityCheckFunctions (initSystem sentHandler user) ops
  have hinit : (initSystem sentHandler user).ctx.priorityCheckFunctions =
      user ++ [fun _ => true] := rfl
  rw [hinit] at hfs
  exact ⟨hfs, sendRound_order _ user hfs send reqs⟩

/-- C8, on a context created with type 1 prioritised, after `b1`, `a1` and `a2` were
queued, with every send succeeding: the items of type 1 are sent first, in
store order, then the other item. -/
theorem priority_then_store_order_witness :
    (sendRound (run (initSystem true [fun ty => ty == 1])
          [.setDeferred "b1" (some [3]) 1 "u/b1" false false false 2,
           .setDeferred "a1" (some [1]) 1 "u/a1" false false false 1,
           .setDeferred "a2" (some [2]) 1 "u/a2" false false false 1]).ctx sampleSendOk
        [sampleB1, sampleA1 false false, sampleA2]).calls.map (fun c => c.item) =
      [sampleA1 false false, sampleA2, sampleB1] :=
  ((priority_then_store_order true [fun ty => ty == 1]
    [.setDeferred "b1" (some [3]) 1 "u/b1" false false false 2,
     .setDeferred "a1" (some [1]) 1 "u/a1" false false false 1,
     .setDeferred "a2" (some [2]) 1 "u/a2" false false false 1] sampleSendOk
    [sampleB1, sampleA1 false false, sampleA2]).2.2.1 (by decide)).trans (by decide)

/-- C9: empty-payload skip. An item whose buffer is nil or of length zero is the
item of no call of the round; where the inner loop meets it, it goes on to the
rest of the batch in the same state (same `sent`, `exit`, iteration counter
and calls) and leaves the item as it is; and every callback carrying its
buffer has status `SenderStatusDebug`. -/
theorem empty_payload_skip (ctx : DeferredContext) (send : Sender)
    (reqs : List deferredItem) (item : deferredItem)
    (hitem : item.buf = none ∨ ∃ b, item.buf = some b ∧ b.length = 0) :
    (∀ c ∈ (sendRound ctx send reqs).calls, c.item ≠ item) ∧
      (∀ (f : TypePriorityCheckFunction) (rest : List deferredItem) (st : RoundState),
        innerLoop ctx.sentHandler send f (item :: rest) st =
          (item :: (innerLoop ctx.sentHandler send f rest st).1,
            (innerLoop ctx.sentHandler send f rest st).2)) ∧
      (∀ e ∈ (sendRound ctx send reqs).handled, e.data = item.buf →
        e.result = SenderStatusDebug) := by
  have hp : hasPayload item = false := by
    rcases hitem with h | ⟨b, h, hb⟩
    · simp [hasPayload, h]
    · simp [hasPayload, h, hb]
  have hcall : ∀ c ∈ (sendRound ctx send reqs).calls, c.item ≠ item := by
    intro c hc heq
    have := (sendRound_call_item ctx send reqs hc).2
    rw [heq, hp] at this
    cases this
  refine ⟨hcall, ?_, ?_⟩
  · intro f rest st
    exact innerLoop_cons_skip ctx.sentHandler send f item rest st (by simp [eligible, hp])
  · intro e he hdata
    rw [sendRound_handled] at he
    split at he
    · rcases List.mem_append.mp he with h | h
      · obtain ⟨c, hc, rfl⟩ := List.mem_map.mp h
        exfalso
        have hpc := (sendRound_call_item ctx send reqs hc).2
        obtain ⟨b, hb, hlen⟩ := hasPayload_iff.mp hpc
        simp only [SendCall.event] at hdata
        rcases hitem with h0 | ⟨b0, h0, hb0⟩
        · rw [h0, hb] at hdata
          cases hdata
        · rw [h0, hb] at hdata
          simp only [Option.some.injEq] at hdata
          rw [hdata] at hlen
          exact hlen hb0
      · obtain ⟨x, _, rfl⟩ := List.mem_map.mp h
        rfl
    · simp at he

/-- C9, on a batch whose first item has a buffer of length zero: the call made for
the other item is not for it, and the inner loop steps over it. -/
theorem empty_payload_skip_witness :
    (⟨sampleB1, 7, ⟨SenderStatusNone, none, some []⟩, false⟩ : SendCall).item ≠ sampleEmpty ∧
      innerLoop true sampleSendOk (fun _ => true) [sampleEmpty, sampleB1]
          (roundStart (sampleCtx false false)) =
        (sampleEmpty :: (innerLoop true sampleSendOk (fun _ => true) [sampleB1]
            (roundStart (sampleCtx false false))).1,
          (innerLoop true sampleSendOk (fun _ => true) [sampleB1]
            (roundStart (sampleCtx false false))).2) :=
  have h := empty_payload_skip (sampleCtx false false) sampleSendOk [sampleEmpty, sampleB1]
    sampleEmpty (Or.inr ⟨[], rfl, rfl⟩)
  ⟨h.1 _ (by decide), h.2.1 (fun _ => true) [sampleB1] (roundStart (sampleCtx false false))⟩

/-- C10: callback trace. On a batch with pairwise distinct keys, the invocations of the
completion callback in a round are, when a handler is set, one per call of
the transmission primitive, in order, with the item type, buffer and status
of that call, followed by one per item of the not-sent set, in order, with
status `SenderStatusDebug` and nil traces (and none without a handler). Hence
for a call that returned no error and status `SenderStatusNone`: it is the
only call for its key, its callback carries `SenderStatusNone`, no item of
the not-sent set has its key (so no further callback is made for it), and
when no item with its key arrived in the store during the round, none is in
the store after the merge-back. -/
theorem callback_trace (ctx : DeferredContext) (send : Sender) (reqs : List deferredItem)
    (huniq : (keysOf reqs).Nodup) :
    (sendRound ctx send reqs).handled =
        (if ctx.sentHandler then
          (sendRound ctx send reqs).calls.map SendCall.event ++
            (sendRound ctx send reqs).notSentReqs.map
              (fun item => ⟨item.itemType, item.buf, SenderStatusDebug, none⟩)
        else []) ∧
      ∀ c ∈ (sendRound ctx send reqs).calls, c.err = false →
        c.rv.Status = SenderStatusNone →
          (sendRound ctx send reqs).calls.filter
              (fun c' => decide (c'.item.key = c.item.key)) = [c] ∧
            c.event = ⟨c.item.itemType, c.item.buf, SenderStatusNone, c.rv.TracedReqs⟩ ∧
            c.item.key ∉ keysOf (sendRound ctx send reqs).notSentReqs ∧
            (c.item.key ∉ keysOf ctx.deferredItems →
              c.item.key ∉ keysOf (finishRound ctx send reqs).ctx.deferredItems) := by
  refine ⟨sendRound_handled ctx send reqs, ?_⟩
  intro c hc herr hst
  have hh := not_halts_of_success herr hst
  obtain ⟨_, _, _, h4⟩ := done_call_facts ctx send reqs huniq hc hh
  refine ⟨?_, ?_, h4, fun habs => finishRound_key_absent ctx send reqs _ h4 habs⟩
  · apply filter_eq_singleton_of_unique _ _ c
      (List.Nodup.of_map _ (sendRound_items_nodup ctx send reqs huniq)) hc (by simp)
    intro x hx hpx
    exact sendRound_call_unique ctx send reqs huniq hc hx (by simpa using hpx)
  · simp only [SendCall.event, statusAfter, herr, hst]
    simp

/-- C10, on the sample context with every send succeeding: the call for `b1` is the
only one for its key and `b1` is not in the store after the round. -/
theorem callback_trace_witness :
    (sendRound (sampleCtx false false) sampleSendOk
        [sampleB1, sampleA1 false false, sampleA2]).calls.filter
          (fun c' => decide (c'.item.key = "b1")) =
        [⟨sampleB1, wrapInt (wrapInt (7 + 1) + 1), ⟨SenderStatusNone, none, some []⟩, false⟩] ∧
      "b1" ∉ keysOf (sendRound (sampleCtx false false) sampleSendOk
        [sampleB1, sampleA1 false false, sampleA2]).notSentReqs :=
  have h := (callback_trace (sampleCtx false false) sampleSendOk
    [sampleB1, sampleA1 false false, sampleA2] (by decide)).2
    ⟨sampleB1, wrapInt (wrapInt (7 + 1) + 1), ⟨SenderStatusNone, none, some []⟩, false⟩
    (by decide) rfl rfl
  ⟨h.1, h.2.2.1⟩

/-- C11: timer regime, without concurrency. From a fresh context, after every
sequence of `SetDeferred`, `RemoveDeferred` and complete rounds of
`handleDeferred` executed one after another, with any send outcomes, the
ticker is the range ticker `longTime1..longTime2` if and only if the store is
empty, and the exponential ticker from 1 to 15 minutes with random factor 0.3
if and only if the store is not empty. -/
theorem timer_regime_sequential (sentHandler : Bool)
    (priorityCheckFunctions : List TypePriorityCheckFunction) (ops : List SeqOp) :
    ((seqRun (CreateDeferredCtx sentHandler priorityCheckFunctions) ops).Ticker.config =
          .rangeTicker longTime1 longTime2 ↔
        (seqRun (CreateDeferredCtx sentHandler priorityCheckFunctions) ops).deferredItems = []) ∧
      ((seqRun (CreateDeferredCtx sentHandler priorityCheckFunctions) ops).Ticker.config =
          .expTicker (1 * Minute) (15 * Minute) 3 ↔
        (seqRun (CreateDeferredCtx sentHandler priorityCheckFunctions) ops).deferredItems ≠ []) := by
  have h := seqRun_regime (CreateDeferredCtx sentHandler priorityCheckFunctions) ops
    (fun _ => rfl) (fun h => absurd rfl h)
  constructor
  · constructor
    · intro hc
      by_contra hne
      rw [h.2 hne] at hc
      cases hc
    · exact h.1
  · constructor
    · intro hc hnil
      rw [h.1 hnil] at hc
      cases hc
    · exact h.2

/-- C12: timer regime with producers running during a round. The code at the failing
run: an item is queued, a round takes it, `RemoveDeferred` is called for some
other key while the round is sending (the store is empty then, so the timer is
stopped), the send fails and the item is merged back. No round is in progress,
the store holds the item, and the ticker is the range ticker
`longTime1..longTime2`. -/
theorem dormant_timer_with_pending_item :
    (run (initSystem true [])
        [.setDeferred "a" (some [1]) 1 "u" false false false 0, .takeAll,
         .removeDeferred "x", .mergeBack sampleSendFail]).inflight = none ∧
      (run (initSystem true [])
        [.setDeferred "a" (some [1]) 1 "u" false false false 0, .takeAll,
         .removeDeferred "x", .mergeBack sampleSendFail]).ctx.deferredItems =
        [⟨0, "a", some [1], 1, "u", false, false, false⟩] ∧
      (run (initSystem true [])
        [.setDeferred "a" (some [1]) 1 "u" false false false 0, .takeAll,
         .removeDeferred "x", .mergeBack sampleSendFail]).ctx.Ticker.config =
        .rangeTicker longTime1 longTime2 := by
  decide

/-- C13: round result. `handleDeferred` returns true if and only if the not-sent set
of the round is empty (also when producers ran during the round); on an empty
store it returns true with no call of the transmission primitive, no
invocation of the completion callback, the iteration counter unchanged and the
ticker unchanged. -/
theorem round_result (ctx : DeferredContext) (send : Sender) :
    ((handleDeferred ctx send).allSent = true ↔
        (sendRound ctx send ctx.deferredItems).notSentReqs = []) ∧
      (∀ reqs : List deferredItem, (finishRound ctx send reqs).allSent = true ↔
        (sendRound ctx send reqs).notSentReqs = []) ∧
      (ctx.deferredItems = [] →
        (handleDeferred ctx send).allSent = true ∧ (handleDeferred ctx send).calls = [] ∧
          (handleDeferred ctx send).handled = [] ∧
          (handleDeferred ctx send).ctx.deferredItems = [] ∧
          (handleDeferred ctx send).ctx.iteration = ctx.iteration ∧
          (handleDeferred ctx send).ctx.Ticker = ctx.Ticker) :=
  ⟨handleDeferred_allSent ctx send, fun reqs => finishRound_allSent ctx send reqs,
    handleDeferred_of_empty ctx send⟩

/-- C14, as stated, fails at the top of the range of `int`: a round that makes one
call from the counter value 2^63 - 1 leaves the counter at -2^63, which is
neither the value before plus one nor a value that did not decrease. -/
theorem iteration_counter_wraps :
    (handleDeferred sampleCtxMaxInt sampleSendOk).calls.length = 1 ∧
      (handleDeferred sampleCtxMaxInt sampleSendOk).ctx.iteration = -9223372036854775808 ∧
      (handleDeferred sampleCtxMaxInt sampleSendOk).ctx.iteration ≠
        sampleCtxMaxInt.iteration + 1 ∧
      (handleDeferred sampleCtxMaxInt sampleSendOk).ctx.iteration <
        sampleCtxMaxInt.iteration := by
  decide

/-- C14, amended: iteration counter. For every round in which the counter stays in
the range of a 64-bit `int` (it is at least -2^63 before the round and the
value before plus the number of calls is below 2^63), the counter after the
round is the value before plus the number of calls made to the transmission
primitive, the call at position `k` (counted from 0) receives the value
before plus `k`, the counter does not decrease, and `SetDeferred` and
`RemoveDeferred` leave it unchanged. -/
theorem iteration_counter (ctx : DeferredContext) (send : Sender)
    (hlo : -2 ^ 63 ≤ ctx.iteration)
    (hhi : ctx.iteration + (handleDeferred ctx send).calls.length < 2 ^ 63) :
    (handleDeferred ctx send).ctx.iteration =
        ctx.iteration + (handleDeferred ctx send).calls.length ∧
      (∀ (k : Nat) (c : SendCall), (handleDeferred ctx send).calls[k]? = some c →
        c.iteration = ctx.iteration + k) ∧
      ctx.iteration ≤ (handleDeferred ctx send).ctx.iteration ∧
      (∀ (key : String) (buf : Option (List Nat)) (size : Int) (url : String)
        (bail tracing ign : Bool) (ty : Nat),
        (SetDeferred ctx key buf size url bail tracing ign ty).iteration = ctx.iteration) ∧
      (∀ key : String, (RemoveDeferred ctx key).iteration = ctx.iteration) := by
  have h1 : (handleDeferred ctx send).ctx.iteration =
      ctx.iteration + (handleDeferred ctx send).calls.length := by
    rw [handleDeferred_iteration]
    exact nextIteration_iterate _ _ hlo hhi
  refine ⟨h1, ?_, ?_, fun key buf size url bail tracing ign ty =>
    SetDeferred_iteration ctx key buf size url bail tracing ign ty,
    fun key => RemoveDeferred_iteration ctx key⟩
  · intro k c hc
    have hlt : k < (handleDeferred ctx send).calls.length :=
      (List.getElem?_eq_some_iff.mp hc).1
    rw [handleDeferred_calls, sendRound_calls] at hc
    rw [seqCalls_iteration_at send _ _ k c hc]
    apply nextIteration_iterate _ _ hlo
    have : (k : Int) < ((handleDeferred ctx send).calls.length : Int) := by exact_mod_cast hlt
    omega
  · rw [h1]
    omega

/-- C14, amended, on the sample context with every send succeeding: three calls from
the counter value 7. -/
theorem iteration_counter_witness :
    (handleDeferred (sampleCtx false false) sampleSendOk).ctx.iteration = 7 + (3 : Nat) :=
  ((iteration_counter (sampleCtx false false) sampleSendOk (by decide) (by decide)).1).trans
    (by decide)

/-- C15: the merge equals its reference. For a not-sent list and a store, each with
pairwise distinct keys, the store after `mergeQueuesNoLock` is the not-sent
list with each entry whose key occurs in the store replaced, at its position,
by the store's item of that key, followed by the items of the store whose key
does not occur in the not-sent list, in their order; merging into an empty
store gives the not-sent list, and merging an empty list leaves the store as
it is. -/
theorem merge_eq_reference (ctx : DeferredContext) (notSentReqs : List deferredItem)
    (hn : (keysOf notSentReqs).Nodup) (hs : (keysOf ctx.deferredItems).Nodup) :
    (mergeQueuesNoLock ctx notSentReqs).deferredItems =
        notSentReqs.map (fun oldItem =>
            (ctx.deferredItems.find? (fun it => decide (it.key = oldItem.key))).getD oldItem) ++
          ctx.deferredItems.filter (fun it => decide (it.key ∉ keysOf notSentReqs)) ∧
      (mergeQueuesNoLock ctx notSentReqs).deferredItems =
        mergeRef notSentReqs ctx.deferredItems ∧
      (ctx.deferredItems = [] → (mergeQueuesNoLock ctx notSentReqs).deferredItems = notSentReqs) ∧
      (mergeQueuesNoLock ctx []).deferredItems = ctx.deferredItems := by
  refine ⟨mergeQueuesNoLock_eq_mergeRef ctx notSentReqs hn hs,
    mergeQueuesNoLock_eq_mergeRef ctx notSentReqs hn hs, ?_, ?_⟩
  · intro h0
    rw [mergeQueuesNoLock_items, h0, mergeLoop_nil_store]
    simp
  · rw [mergeQueuesNoLock_items]
    rfl

/-- C15, on a not-sent list `a1, a2` merged into a store holding a newer `a2` and `b1`. -/
theorem merge_eq_reference_witness :
    (mergeQueuesNoLock
        { sampleCtx false false with
          deferredItems := [{ sampleA2 with buf := some [9] }, sampleB1] }
        [sampleA1 false false, sampleA2]).deferredItems =
      [sampleA1 false false, { sampleA2 with buf := some [9] }, sampleB1] :=
  ((merge_eq_reference
    { sampleCtx false false with deferredItems := [{ sampleA2 with buf := some [9] }, sampleB1] }
    [sampleA1 false false, sampleA2] (by decide) (by decide)).1).trans (by decide)

/-- C16: the merge loses nothing and duplicates nothing. For a not-sent list and a
store, each with pairwise distinct keys, the store after `mergeQueuesNoLock`
has pairwise distinct keys, its keys are those of the not-sent list together
with those of the store, its length is the sum of the two lengths minus the
number of keys common to both, and every item of the store is in it. -/
theorem merge_no_loss_no_dup (ctx : DeferredContext) (notSentReqs : List deferredItem)
    (hn : (keysOf notSentReqs).Nodup) (hs : (keysOf ctx.deferredItems).Nodup) :
    (keysOf (mergeQueuesNoLock ctx notSentReqs).deferredItems).Nodup ∧
      (∀ k : String, k ∈ keysOf (mergeQueuesNoLock ctx notSentReqs).deferredItems ↔
        k ∈ keysOf notSentReqs ∨ k ∈ keysOf ctx.deferredItems) ∧
      (mergeQueuesNoLock ctx notSentReqs).deferredItems.length =
        notSentReqs.length + ctx.deferredItems.length -
          ((keysOf ctx.deferredItems).filter
            (fun k => decide (k ∈ keysOf notSentReqs))).length ∧
      ∀ it ∈ ctx.deferredItems, it ∈ (mergeQueuesNoLock ctx notSentReqs).deferredItems := by
  rw [mergeQueuesNoLock_items]
  refine ⟨merge_keys_nodup _ _ hn hs, merge_keys_iff _ _ hs, merge_length _ _ hs, ?_⟩
  intro it hit
  exact List.mem_append.mpr (mergeLoop_keeps _ _ hit)

/-- C16, on a not-sent list `a1, a2` merged into a store holding a newer `a2` and `b1`:
three items result. -/
theorem merge_no_loss_no_dup_witness :
    (mergeQueuesNoLock
        { sampleCtx false false with
          deferredItems := [{ sampleA2 with buf := some [9] }, sampleB1] }
        [sampleA1 false false, sampleA2]).deferredItems.length = 3 :=
  ((merge_no_loss_no_dup
    { sampleCtx false false with deferredItems := [{ sampleA2 with buf := some [9] }, sampleB1] }
    [sampleA1 false false, sampleA2] (by decide) (by decide)).2.2.1).trans (by decide)

/-- C17: zero-sent accounting. For a round of `handleDeferred` on a non-empty store in
which the counter `sent` stays 0, the not-sent set is the whole original
batch, in its order and with its items of nil or empty buffer, `handleDeferred`
returns false, and the store after the round is the batch. -/
theorem zero_sent_accounting (ctx : DeferredContext) (send : Sender)
    (hne : ctx.deferredItems ≠ [])
    (hsent : (sendRound ctx send ctx.deferredItems).sent = 0) :
    (sendRound ctx send ctx.deferredItems).notSentReqs = ctx.deferredItems ∧
      (handleDeferred ctx send).allSent = false ∧
      (handleDeferred ctx send).ctx.deferredItems = ctx.deferredItems := by
  have h := sendRound_notSent_of_sent_zero ctx send ctx.deferredItems hsent
  obtain ⟨hall, hstore, _⟩ := handleDeferred_of_nonempty ctx send hne
  refine ⟨h, ?_, by rw [hstore, h]⟩
  rw [hall, h]
  simpa [List.length_eq_zero] using hne

/-- C17, on a store with an item of empty buffer, an item of nil buffer and an item
whose send fails: the three stay queued. -/
theorem zero_sent_accounting_witness :
    (sendRound (sampleCtx false false) sampleSendFail
        [sampleEmpty, { sampleA2 with buf := none }, sampleB1]).notSentReqs =
      [sampleEmpty, { sampleA2 with buf := none }, sampleB1] :=
  (zero_sent_accounting
    { sampleCtx false false with
      deferredItems := [sampleEmpty, { sampleA2 with buf := none }, sampleB1] }
    sampleSendFail (by decide) (by decide)).1

/-- C18, as stated, fails for a buffer of length zero: in a round on an item with a
non-nil buffer of length zero followed by `b1`, whose send succeeds, one item
is counted as sent, and the item of empty buffer is in the not-sent set and in
the store after the round. -/
theorem zero_length_item_stays_queued :
    (sendRound (sampleCtx false false) sampleSendOk [sampleEmpty, sampleB1]).sent = 1 ∧
      sampleEmpty.buf = some [] ∧
      sampleEmpty ∉ (sendRound (sampleCtx false false) sampleSendOk
        [sampleEmpty, sampleB1]).calls.map (fun c => c.item) ∧
      sampleEmpty ∈ (sendRound (sampleCtx false false) sampleSendOk
        [sampleEmpty, sampleB1]).notSentReqs ∧
      sampleEmpty ∈ (handleDeferred
        { sampleCtx false false with deferredItems := [sampleEmpty, sampleB1] }
        sampleSendOk).ctx.deferredItems := by
  decide

/-- C18, amended: some-sent accounting. For a round of `handleDeferred` on a store with
pairwise distinct keys in which at least one item is counted as sent, the
not-sent set is the sub-sequence, in batch order, of the items whose buffer is
non-nil after the loops: the original items with a non-nil buffer that were
not dealt with, each of which is either the item of the call that stopped the
round or was not passed to the transmission primitive. Items with a nil
buffer are not in the not-sent set, items with a non-nil buffer of length
zero are, and the not-sent set is the store after the round. -/
theorem some_sent_accounting (ctx : DeferredContext) (send : Sender)
    (huniq : (keysOf ctx.deferredItems).Nodup)
    (hsent : 0 < (sendRound ctx send ctx.deferredItems).sent) :
    (sendRound ctx send ctx.deferredItems).notSentReqs =
        (sendRound ctx send ctx.deferredItems).reqs.filter (fun el => el.buf.isSome) ∧
      (sendRound ctx send ctx.deferredItems).notSentReqs =
        ctx.deferredItems.filter (fun it =>
          it.buf.isSome && decide (it ∉ doneOf (sendRound ctx send ctx.deferredItems).calls)) ∧
      (∀ it ∈ (sendRound ctx send ctx.deferredItems).notSentReqs,
        (∃ c ∈ (sendRound ctx send ctx.deferredItems).calls, c.halts = true ∧ c.item = it) ∨
          it ∉ (sendRound ctx send ctx.deferredItems).calls.map (fun c => c.item)) ∧
      (∀ it ∈ (sendRound ctx send ctx.deferredItems).notSentReqs, it.buf ≠ none) ∧
      (∀ it ∈ ctx.deferredItems, (∃ b, it.buf = some b ∧ b.length = 0) →
        it ∈ (sendRound ctx send ctx.deferredItems).notSentReqs) ∧
      (handleDeferred ctx send).ctx.deferredItems =
        (sendRound ctx send ctx.deferredItems).notSentReqs := by
  have hd : doneOf (sendRound ctx send ctx.deferredItems).calls ≠ [] := by
    intro h0
    rw [sendRound_sent, h0] at hsent
    simp at hsent
  have hns := sendRound_notSent ctx send ctx.deferredItems huniq
  rw [if_neg hd] at hns
  have hne : ctx.deferredItems ≠ [] := by
    intro h0
    obtain ⟨x, hx⟩ := List.exists_mem_of_ne_nil _ hd
    have := mem_doneOf_seqCalls send _ _ (by rw [← sendRound_calls]; exact hx)
    rw [h0] at this
    have := (mem_priorityOrder this).1
    simp at this
  refine ⟨?_, hns, ?_, ?_, ?_, (handleDeferred_of_nonempty ctx send hne).2.1⟩
  · rw [sendRound_notSent_def]
    simp [notSentOf, Nat.pos_iff_ne_zero.mp hsent]
  · intro it hit
    rw [hns] at hit
    have h2 := (List.mem_filter.mp hit).2
    simp only [Bool.and_eq_true, decide_eq_true_eq] at h2
    by_cases hcall : it ∈ (sendRound ctx send ctx.deferredItems).calls.map (fun c => c.item)
    · left
      obtain ⟨c, hc, hci⟩ := List.mem_map.mp hcall
      refine ⟨c, hc, ?_, hci⟩
      cases hh : c.halts with
      | true => rfl
      | false => exact absurd (mem_doneOf.mpr ⟨c, hc, hh, hci⟩) h2.2
    · right; exact hcall
  · intro it hit hnone
    rw [hns] at hit
    have h2 := (List.mem_filter.mp hit).2
    simp [hnone] at h2
  · intro it hit hb
    obtain ⟨b, hbuf, hlen⟩ := hb
    rw [hns]
    apply List.mem_filter.mpr
    refine ⟨hit, ?_⟩
    simp only [Bool.and_eq_true, decide_eq_true_eq, hbuf, Option.isSome_some, true_and]
    intro hmem
    obtain ⟨c, hc, _, hci⟩ := mem_doneOf.mp hmem
    have hp := (sendRound_call_item ctx send ctx.deferredItems hc).2
    rw [hci] at hp
    simp [hasPayload, hbuf, hlen] at hp

/-- C18, amended, on a store with an item of empty buffer, an item of nil buffer and an
item whose send succeeds: the item of empty buffer is the store after the round. -/
theorem some_sent_accounting_witness :
    (handleDeferred
        { sampleCtx false false with
          deferredItems := [sampleEmpty, { sampleA2 with buf := none }, sampleB1] }
        sampleSendOk).ctx.deferredItems = [sampleEmpty] :=
  ((some_sent_accounting
    { sampleCtx false false with
      deferredItems := [sampleEmpty, { sampleA2 with buf := none }, sampleB1] }
    sampleSendOk (by decide) (by decide)).2.2.2.2.2).trans (by decide)

/-- C19: failure status normalisation. For a call of a round that returned an error,
the bail-on-HTTP-error case not applying, the status passed to the completion
callback is `SenderStatusFailed` when the returned status is
`SenderStatusNone` and the returned status otherwise; it is never
`SenderStatusNone`; and when a handler is set, the invocation at the position
of the call carries that status. -/
theorem failure_status_normalised (ctx : DeferredContext) (send : Sender)
    (reqs : List deferredItem) (k : Nat) (c : SendCall)
    (hc : (sendRound ctx send reqs).calls[k]? = some c)
    (herr : c.err = true) (hbail : bailsOut c.item c.rv = false) :
    statusAfter c.item c.rv c.err =
        (if c.rv.Status = SenderStatusNone then SenderStatusFailed else c.rv.Status) ∧
      statusAfter c.item c.rv c.err ≠ SenderStatusNone ∧
      (ctx.sentHandler = true →
        (sendRound ctx send reqs).handled[k]? =
          some ⟨c.item.itemType, c.item.buf,
            if c.rv.Status = SenderStatusNone then SenderStatusFailed else c.rv.Status,
            c.rv.TracedReqs⟩) := by
  have h1 := event_result_of_error herr hbail
  refine ⟨h1, event_result_of_failure (Or.inl herr) hbail, ?_⟩
  intro hh
  rw [sendRound_handled_at ctx send reqs hh k c hc]
  simp only [SendCall.event] at h1 ⊢
  rw [h1]

/-- C19, on the sample context: the send of `a1` fails with an error and status
`SenderStatusNone`, and the callback gets `SenderStatusFailed`. -/
theorem failure_status_normalised_witness :
    (sendRound (sampleCtx false false) sampleSendErr
        [sampleB1, sampleA1 false false, sampleA2]).handled[0]? =
      some ⟨1, some [1], SenderStatusFailed, none⟩ :=
  (failure_status_normalised (sampleCtx false false) sampleSendErr
    [sampleB1, sampleA1 false false, sampleA2] 0
    ⟨sampleA1 false false, 7, ⟨SenderStatusNone, none, none⟩, true⟩
    (by decide) rfl rfl).2.2 rfl

/-- C20: at most one attempt per item per round. For a batch with pairwise distinct
items and any priority functions, overlapping or not, the items passed to the
transmission primitive in a round are pairwise distinct, so each item of the
batch is passed at most once; and for every batch the number of calls is at
most the length of the batch. -/
theorem at_most_one_attempt (ctx : DeferredContext) (send : Sender)
    (reqs : List deferredItem) (hn : reqs.Nodup) :
    ((sendRound ctx send reqs).calls.map (fun c => c.item)).Nodup ∧
      (∀ it : deferredItem,
        ((sendRound ctx send reqs).calls.map (fun c => c.item)).count it ≤ 1) ∧
      (sendRound ctx send reqs).calls.length ≤ reqs.length := by
  have h := sendRound_items_nodup_of_nodup ctx send reqs hn
  exact ⟨h, fun it => List.nodup_iff_count_le_one.mp h it, sendRound_calls_length_le ctx send reqs⟩

/-- C20, on the sample context, where type 1 is accepted by both priority functions:
three calls for three items. -/
theorem at_most_one_attempt_witness :
    ((sendRound (sampleCtx false false) sampleSendOk
        [sampleB1, sampleA1 false false, sampleA2]).calls.map (fun c => c.item)).count
        (sampleA1 false false) ≤ 1 :=
  (at_most_one_attempt (sampleCtx false false) sampleSendOk
    [sampleB1, sampleA1 false false, sampleA2] (by decide)).2.1 (sampleA1 false false)

end Zedcloud
